import Mathlib

/-!
Verification of the mapelia projection library against its design notes.

The source modules translate Python code that imports its numeric kernel
(sin, cos, sqrt, ...) from numpy.  Purely combinatorial code is embedded
generically over a linear ordered field together with the imported sqrt
function; real-analytic code is embedded over the real numbers.
-/

namespace Mapelia

/-- A mesh point: the namedtuple Point(pid, x, y, z) of projections.pyx. -/
structure Pt (K : Type) where
  pid : ℕ
  x : K
  y : K
  z : K
deriving DecidableEq, Repr

/-- A face, as a triplet of point ids. -/
abbrev Face : Type := ℕ × ℕ × ℕ

/-- Placeholder point used for out-of-range list access. -/
def dummyPt (K : Type) [Zero K] : Pt K := ⟨0, 0, 0, 0⟩

/-- Function norm of projections.pyx: the components of p normalized to r=1.
The square root is the function the module imports from numpy. -/
def norm {K : Type} [Field K] (sqrt : K → K) (p : Pt K) : K × K × K :=
  let r := sqrt (p.x * p.x + p.y * p.y + p.z * p.z)
  (p.x / r, p.y / r, p.z / r)

/-- Function dist2 of projections.pyx: squared distance between two points. -/
def dist2 {K : Type} [Field K] (p0 p1 : K × K × K) : K :=
  (p1.1 - p0.1) * (p1.1 - p0.1) + (p1.2.1 - p0.2.1) * (p1.2.1 - p0.2.1) +
    (p1.2.2 - p0.2.2) * (p1.2.2 - p0.2.2)

/-- The inner while loop of get_faces: the dog walks forward through the
previous row while the squared distance to the (normalized) human point
strictly decreases, emitting one face per accepted step.  The loop is run
on explicit fuel; get_faces supplies fuel equal to the previous row length,
which is proved sufficient below. -/
def dogWalk {K : Type} [LinearOrderedField K] (sqrt : K → K) (hpid : ℕ)
    (prev : List (Pt K)) (pnh : K × K × K) :
    ℕ → K → ℕ → List Face × ℕ
  | dog, _, 0 => ([], dog)
  | dog, dist, fuel + 1 =>
    let dw := (dog + 1) % prev.length
    let pdw := prev.getD dw (dummyPt K)
    let distNew := dist2 pnh (norm sqrt pdw)
    if distNew < dist then
      let rest := dogWalk sqrt hpid prev pnh dw distNew fuel
      ((hpid, pdw.pid, (prev.getD dog (dummyPt K)).pid) :: rest.1, rest.2)
    else
      ([], dog)

/-- The closing while loop of get_faces: walk the dog the rest of the way
to index 0, emitting one face per step.  Run on fuel, with fuel equal to
the previous row length supplied by get_faces. -/
def closeWalk {K : Type} [Zero K] (prev : List (Pt K)) (c0pid : ℕ) :
    ℕ → ℕ → List Face
  | _, 0 => []
  | dog, fuel + 1 =>
    if dog = 0 then []
    else
      let dw := (dog + 1) % prev.length
      (c0pid, (prev.getD dw (dummyPt K)).pid, (prev.getD dog (dummyPt K)).pid) ::
        closeWalk prev c0pid dw fuel

/-- The point where the human is: row_current at index i. -/
def humanAt {K : Type} [Zero K] (cur : List (Pt K)) (i : ℕ) : Pt K :=
  cur.getD i (dummyPt K)

/-- One execution of the inner while loop of get_faces at human index i,
starting with the dog at index dog of the previous row. -/
def walkAt {K : Type} [LinearOrderedField K] (sqrt : K → K)
    (prev cur : List (Pt K)) (i dog : ℕ) : List Face × ℕ :=
  dogWalk sqrt (humanAt cur i).pid prev (norm sqrt (humanAt cur i)) dog
    (dist2 (norm sqrt (humanAt cur i)) (norm sqrt (prev.getD dog (dummyPt K))))
    prev.length

/-- The bridging face of get_faces (projections.pyx): from human i to human
i+1 and the dog, or to human 0 at the end when close_figure is set. -/
def bridgeAt {K : Type} [Zero K] (prev cur : List (Pt K)) (close : Bool)
    (i dog2 : ℕ) : List Face :=
  if i + 1 < cur.length then
    [((humanAt cur i).pid, (humanAt cur (i + 1)).pid, (prev.getD dog2 (dummyPt K)).pid)]
  else if close then
    [((humanAt cur i).pid, (humanAt cur 0).pid, (prev.getD dog2 (dummyPt K)).pid)]
  else []

/-- The loop over the current row of get_faces (projections.pyx version):
for each human index, walk the dog, then emit the bridging face. -/
def bandLoop {K : Type} [LinearOrderedField K] (sqrt : K → K)
    (prev cur : List (Pt K)) (close : Bool) :
    List ℕ → ℕ → List Face × ℕ
  | [], dog => ([], dog)
  | i :: is, dog =>
    let w := walkAt sqrt prev cur i dog
    let rest := bandLoop sqrt prev cur close is w.2
    (w.1 ++ (bridgeAt prev cur close i w.2 ++ rest.1), rest.2)

/-- All faces of one band between two adjacent rows (projections.pyx). -/
def bandFaces {K : Type} [LinearOrderedField K] (sqrt : K → K)
    (prev cur : List (Pt K)) (close : Bool) : List Face :=
  let bl := bandLoop sqrt prev cur close (List.range cur.length) 0
  bl.1 ++ (if close then closeWalk prev (humanAt cur 0).pid bl.2 prev.length else [])

/-- The outer loop of get_faces over consecutive row pairs. -/
def facesAux {K : Type} [LinearOrderedField K] (sqrt : K → K) (close : Bool) :
    List (Pt K) → List (List (Pt K)) → List Face
  | _, [] => []
  | prev, cur :: rest => bandFaces sqrt prev cur close ++ facesAux sqrt close cur rest

/-- Function get_faces of projections.pyx: faces as triplets of point ids,
via the walking-the-dog algorithm. -/
def get_faces {K : Type} [LinearOrderedField K] (sqrt : K → K)
    (points : List (List (Pt K))) (close_figure : Bool) : List Face :=
  match points with
  | [] => []
  | r0 :: rest => facesAux sqrt close_figure r0 rest

/-- The bridging face of the older get_faces (the unnamed module): it always
goes from human i to human (i+1) mod len and the dog. -/
def bridgeAtOld {K : Type} [Zero K] (prev cur : List (Pt K)) (i dog2 : ℕ) :
    List Face :=
  [((humanAt cur i).pid, (humanAt cur ((i + 1) % cur.length)).pid,
    (prev.getD dog2 (dummyPt K)).pid)]

/-- The loop over the current row of the older get_faces. -/
def bandLoopOld {K : Type} [LinearOrderedField K] (sqrt : K → K)
    (prev cur : List (Pt K)) :
    List ℕ → ℕ → List Face × ℕ
  | [], dog => ([], dog)
  | i :: is, dog =>
    let w := walkAt sqrt prev cur i dog
    let rest := bandLoopOld sqrt prev cur is w.2
    (w.1 ++ (bridgeAtOld prev cur i w.2 ++ rest.1), rest.2)

/-- One band of the older get_faces; the figure is always closed. -/
def bandFacesOld {K : Type} [LinearOrderedField K] (sqrt : K → K)
    (prev cur : List (Pt K)) : List Face :=
  let bl := bandLoopOld sqrt prev cur (List.range cur.length) 0
  bl.1 ++ closeWalk prev (humanAt cur 0).pid bl.2 prev.length

/-- The outer loop of the older get_faces. -/
def facesAuxOld {K : Type} [LinearOrderedField K] (sqrt : K → K) :
    List (Pt K) → List (List (Pt K)) → List Face
  | _, [] => []
  | prev, cur :: rest => bandFacesOld sqrt prev cur ++ facesAuxOld sqrt cur rest

/-- Function get_faces of the older unnamed projections module: no
close_figure flag, the figure is always closed. -/
def get_faces_old {K : Type} [LinearOrderedField K] (sqrt : K → K)
    (points : List (List (Pt K))) : List Face :=
  match points with
  | [] => []
  | r0 :: rest => facesAuxOld sqrt r0 rest

/-- Function invert of projections.pyx: faces with inverse orientation. -/
def invert : List Face → List Face
  | [] => []
  | (p0, p1, p2) :: fs => (p0, p2, p1) :: invert fs

/-- An exact rational square root (exact on ratios of perfect squares),
used to instantiate the generic embedding on concrete rational inputs
where only perfect squares are ever passed to sqrt. -/
def ratSqrt (q : ℚ) : ℚ := (Nat.sqrt q.num.toNat : ℚ) / (Nat.sqrt q.den : ℚ)

theorem ratSqrt_one : ratSqrt 1 = 1 := by norm_num [ratSqrt]

lemma getD_mem {α : Type} (l : List α) (i : ℕ) (d : α) (h : i < l.length) :
    l.getD i d ∈ l := by
  rw [List.getD_eq_getElem l d h]
  exact List.getElem_mem h

section FacesLemmas

variable {K : Type} [LinearOrderedField K] (sqrt : K → K)

lemma dogWalk_len_le (hpid : ℕ) (prev : List (Pt K)) (pnh : K × K × K) :
    ∀ fuel dog dist, (dogWalk sqrt hpid prev pnh dog dist fuel).1.length ≤ fuel := by
  intro fuel
  induction fuel with
  | zero => intro dog dist; simp [dogWalk]
  | succ n ih =>
    intro dog dist
    simp only [dogWalk]
    split
    · simpa using Nat.succ_le_succ (ih _ _)
    · simp

lemma dogWalk_snd_lt (hpid : ℕ) (prev : List (Pt K)) (pnh : K × K × K) :
    ∀ fuel dog dist, dog < prev.length →
      (dogWalk sqrt hpid prev pnh dog dist fuel).2 < prev.length := by
  intro fuel
  induction fuel with
  | zero => intro dog dist h; simpa [dogWalk] using h
  | succ n ih =>
    intro dog dist h
    have hlen : 0 < prev.length := lt_of_le_of_lt (Nat.zero_le _) h
    simp only [dogWalk]
    split
    · exact ih _ _ (Nat.mod_lt _ hlen)
    · simpa using h

lemma dogWalk_mem (hpid : ℕ) (prev : List (Pt K)) (pnh : K × K × K) :
    ∀ fuel dog dist, dog < prev.length →
      ∀ f ∈ (dogWalk sqrt hpid prev pnh dog dist fuel).1,
        f.1 = hpid ∧ f.2.1 ∈ prev.map Pt.pid ∧ f.2.2 ∈ prev.map Pt.pid := by
  intro fuel
  induction fuel with
  | zero => intro dog dist _ f hf; simp [dogWalk] at hf
  | succ n ih =>
    intro dog dist hdog f hf
    have hlen : 0 < prev.length := lt_of_le_of_lt (Nat.zero_le _) hdog
    simp only [dogWalk] at hf
    split at hf
    · rcases List.mem_cons.mp hf with h | h
      · subst h
        refine ⟨rfl, ?_, ?_⟩
        · exact List.mem_map_of_mem Pt.pid (getD_mem _ _ _ (Nat.mod_lt _ hlen))
        · exact List.mem_map_of_mem Pt.pid (getD_mem _ _ _ hdog)
      · exact ih _ _ (Nat.mod_lt _ hlen) f h
    · simp at hf

lemma walkAt_len_le (prev cur : List (Pt K)) (i dog : ℕ) :
    (walkAt sqrt prev cur i dog).1.length ≤ prev.length :=
  dogWalk_len_le sqrt _ prev _ prev.length dog _

lemma walkAt_snd_lt (prev cur : List (Pt K)) (i dog : ℕ) (h : dog < prev.length) :
    (walkAt sqrt prev cur i dog).2 < prev.length :=
  dogWalk_snd_lt sqrt _ prev _ prev.length dog _ h

lemma walkAt_mem (prev cur : List (Pt K)) (i dog : ℕ) (h : dog < prev.length) :
    ∀ f ∈ (walkAt sqrt prev cur i dog).1,
      f.1 = (humanAt cur i).pid ∧ f.2.1 ∈ prev.map Pt.pid ∧
        f.2.2 ∈ prev.map Pt.pid :=
  dogWalk_mem sqrt _ prev _ prev.length dog _ h

lemma closeWalk_len_le (prev : List (Pt K)) (c0 : ℕ) :
    ∀ fuel dog, (closeWalk prev c0 dog fuel).length ≤ fuel := by
  intro fuel
  induction fuel with
  | zero => intro dog; simp [closeWalk]
  | succ n ih =>
    intro dog
    simp only [closeWalk]
    split
    · simp
    · simpa using Nat.succ_le_succ (ih _)

lemma closeWalk_mem (prev : List (Pt K)) (c0 : ℕ) :
    ∀ fuel dog, dog < prev.length →
      ∀ f ∈ closeWalk prev c0 dog fuel,
        f.1 = c0 ∧ f.2.1 ∈ prev.map Pt.pid ∧ f.2.2 ∈ prev.map Pt.pid := by
  intro fuel
  induction fuel with
  | zero => intro dog _ f hf; simp [closeWalk] at hf
  | succ n ih =>
    intro dog hdog f hf
    have hlen : 0 < prev.length := lt_of_le_of_lt (Nat.zero_le _) hdog
    simp only [closeWalk] at hf
    split at hf
    · simp at hf
    · rcases List.mem_cons.mp hf with h | h
      · subst h
        refine ⟨rfl, ?_, ?_⟩
        · exact List.mem_map_of_mem Pt.pid (getD_mem _ _ _ (Nat.mod_lt _ hlen))
        · exact List.mem_map_of_mem Pt.pid (getD_mem _ _ _ hdog)
      · exact ih _ (Nat.mod_lt _ hlen) f h

lemma bridgeAt_length_true (prev cur : List (Pt K)) (i dog2 : ℕ) :
    (bridgeAt prev cur true i dog2).length = 1 := by
  unfold bridgeAt
  split <;> simp

lemma bridgeAt_length_le (prev cur : List (Pt K)) (close : Bool) (i dog2 : ℕ) :
    (bridgeAt prev cur close i dog2).length ≤ 1 := by
  unfold bridgeAt
  split
  · simp
  · split <;> simp

lemma bridgeAt_mem (prev cur : List (Pt K)) (close : Bool) (i dog2 : ℕ)
    (hi : i < cur.length) (hd : dog2 < prev.length) :
    ∀ f ∈ bridgeAt prev cur close i dog2,
      f.1 ∈ cur.map Pt.pid ∧ f.2.1 ∈ cur.map Pt.pid ∧
        f.2.2 ∈ prev.map Pt.pid := by
  intro f hf
  have hcur0 : 0 < cur.length := lt_of_le_of_lt (Nat.zero_le _) hi
  unfold bridgeAt at hf
  split at hf
  · rcases List.mem_singleton.mp hf with rfl
    exact ⟨List.mem_map_of_mem Pt.pid (getD_mem _ _ _ hi),
      List.mem_map_of_mem Pt.pid (getD_mem _ _ _ (by assumption)),
      List.mem_map_of_mem Pt.pid (getD_mem _ _ _ hd)⟩
  · split at hf
    · rcases List.mem_singleton.mp hf with rfl
      exact ⟨List.mem_map_of_mem Pt.pid (getD_mem _ _ _ hi),
        List.mem_map_of_mem Pt.pid (getD_mem _ _ _ hcur0),
        List.mem_map_of_mem Pt.pid (getD_mem _ _ _ hd)⟩
    · simp at hf

lemma bandLoop_snd_lt (prev cur : List (Pt K)) (close : Bool) :
    ∀ is dog, dog < prev.length →
      (bandLoop sqrt prev cur close is dog).2 < prev.length := by
  intro is
  induction is with
  | nil => intro dog h; simpa [bandLoop] using h
  | cons i is ih =>
    intro dog h
    simp only [bandLoop]
    exact ih _ (walkAt_snd_lt sqrt prev cur i dog h)

lemma bandLoop_len_lb (prev cur : List (Pt K)) :
    ∀ is dog, is.length ≤ (bandLoop sqrt prev cur true is dog).1.length := by
  intro is
  induction is with
  | nil => intro dog; simp [bandLoop]
  | cons i is ih =>
    intro dog
    simp only [bandLoop, List.length_append, List.length_cons]
    have h1 := bridgeAt_length_true prev cur i (walkAt sqrt prev cur i dog).2
    have h2 := ih (walkAt sqrt prev cur i dog).2
    omega

lemma bandLoop_len_ub (prev cur : List (Pt K)) (close : Bool) :
    ∀ is dog, (bandLoop sqrt prev cur close is dog).1.length ≤
      is.length * (prev.length + 1) := by
  intro is
  induction is with
  | nil => intro dog; simp [bandLoop]
  | cons i is ih =>
    intro dog
    simp only [bandLoop, List.length_append, List.length_cons]
    have h1 := walkAt_len_le sqrt prev cur i dog
    have h2 := bridgeAt_length_le prev cur close i (walkAt sqrt prev cur i dog).2
    have h3 := ih (walkAt sqrt prev cur i dog).2
    have : (is.length + 1) * (prev.length + 1)
        = is.length * (prev.length + 1) + (prev.length + 1) := by ring
    omega

lemma bandLoop_mem (prev cur : List (Pt K)) (close : Bool) :
    ∀ is dog, dog < prev.length → (∀ i ∈ is, i < cur.length) →
      ∀ f ∈ (bandLoop sqrt prev cur close is dog).1,
        f.1 ∈ (prev ++ cur).map Pt.pid ∧ f.2.1 ∈ (prev ++ cur).map Pt.pid ∧
          f.2.2 ∈ (prev ++ cur).map Pt.pid := by
  intro is
  induction is with
  | nil => intro dog _ _ f hf; simp [bandLoop] at hf
  | cons i is ih =>
    intro dog hdog his f hf
    have hi : i < cur.length := his i (List.mem_cons_self i is)
    have hmem_prev : ∀ g : ℕ, g ∈ prev.map Pt.pid → g ∈ (prev ++ cur).map Pt.pid := by
      intro g hg
      rw [List.map_append]
      exact List.mem_append_left _ hg
    have hmem_cur : ∀ g : ℕ, g ∈ cur.map Pt.pid → g ∈ (prev ++ cur).map Pt.pid := by
      intro g hg
      rw [List.map_append]
      exact List.mem_append_right _ hg
    have hw2 := walkAt_snd_lt sqrt prev cur i dog hdog
    simp only [bandLoop] at hf
    rcases List.mem_append.mp hf with h | h
    · have hm := walkAt_mem sqrt prev cur i dog hdog f h
      refine ⟨hm.1 ▸ hmem_cur _ (List.mem_map_of_mem Pt.pid (getD_mem _ _ _ hi)), ?_, ?_⟩
      · exact hmem_prev _ hm.2.1
      · exact hmem_prev _ hm.2.2
    rcases List.mem_append.mp h with h | h
    · have hm := bridgeAt_mem prev cur close i (walkAt sqrt prev cur i dog).2 hi hw2 f h
      exact ⟨hmem_cur _ hm.1, hmem_cur _ hm.2.1, hmem_prev _ hm.2.2⟩
    · exact ih _ hw2 (fun x hx => his x (List.mem_cons_of_mem i hx)) f h

end FacesLemmas

/-- C9: invert is an involution, and it swaps the last two ids of every face
while leaving the first id in place. -/
theorem c9_invert_involution (faces : List Face) :
    invert (invert faces) = faces ∧
    invert faces = faces.map (fun f => (f.1, f.2.2, f.2.1)) := by
  constructor
  · induction faces with
    | nil => rfl
    | cons f fs ih => obtain ⟨a, b, c⟩ := f; simpa [invert] using ih
  · induction faces with
    | nil => rfl
    | cons f fs ih => obtain ⟨a, b, c⟩ := f; simpa [invert] using ih

section OldNewEquivalence

variable {K : Type} [LinearOrderedField K] (sqrt : K → K)

lemma bridgeAtOld_eq (prev cur : List (Pt K)) (i dog2 : ℕ) (hi : i < cur.length) :
    bridgeAtOld prev cur i dog2 = bridgeAt prev cur true i dog2 := by
  unfold bridgeAt bridgeAtOld
  by_cases h : i + 1 < cur.length
  · rw [if_pos h, Nat.mod_eq_of_lt h]
  · rw [if_neg h]
    have hlen : i + 1 = cur.length := by omega
    simp [hlen, Nat.mod_self]

lemma bandLoopOld_eq (prev cur : List (Pt K)) :
    ∀ is, (∀ i ∈ is, i < cur.length) → ∀ dog,
      bandLoopOld sqrt prev cur is dog = bandLoop sqrt prev cur true is dog := by
  intro is
  induction is with
  | nil => intro _ dog; rfl
  | cons i is ih =>
    intro his dog
    have hi : i < cur.length := his i (List.mem_cons_self i is)
    simp only [bandLoopOld, bandLoop]
    rw [bridgeAtOld_eq prev cur i _ hi,
      ih (fun x hx => his x (List.mem_cons_of_mem i hx))]

lemma bandFacesOld_eq (prev cur : List (Pt K)) :
    bandFacesOld sqrt prev cur = bandFaces sqrt prev cur true := by
  unfold bandFacesOld bandFaces
  rw [bandLoopOld_eq sqrt prev cur (List.range cur.length)
    (fun x hx => List.mem_range.mp hx) 0]
  simp

lemma facesAuxOld_eq (prev : List (Pt K)) (rest : List (List (Pt K))) :
    facesAuxOld sqrt prev rest = facesAux sqrt true prev rest := by
  induction rest generalizing prev with
  | nil => rfl
  | cons cur rest ih =>
    simp only [facesAuxOld, facesAux, bandFacesOld_eq, ih]

/-- C10: the old and new triangulation routines are equivalent: the older
module's get_faces equals projections.pyx's get_faces with close_figure
set, on every input. -/
theorem c10_old_new_equivalent {K : Type} [LinearOrderedField K]
    (sqrt : K → K) (points : List (List (Pt K))) :
    get_faces_old sqrt points = get_faces sqrt points true := by
  cases points with
  | nil => rfl
  | cons r0 rest => exact facesAuxOld_eq sqrt r0 rest

end OldNewEquivalence

/-- C1 (amended): with close_figure set and both rows nonempty, a band emits
at least one face per current-row point (so at least m faces) and at most
m*(n+1)+n faces, and every id of every emitted face is the id of a point of
one of the two input rows. -/
theorem c1_band_bounds {K : Type} [LinearOrderedField K] (sqrt : K → K)
    (prev cur : List (Pt K)) (hn : 1 ≤ prev.length) (hm : 1 ≤ cur.length) :
    cur.length ≤ (bandFaces sqrt prev cur true).length ∧
    (bandFaces sqrt prev cur true).length ≤
      cur.length * (prev.length + 1) + prev.length ∧
    ∀ f ∈ bandFaces sqrt prev cur true,
      f.1 ∈ (prev ++ cur).map Pt.pid ∧ f.2.1 ∈ (prev ++ cur).map Pt.pid ∧
        f.2.2 ∈ (prev ++ cur).map Pt.pid := by
  have hdog0 : 0 < prev.length := hn
  have hsnd := bandLoop_snd_lt sqrt prev cur true (List.range cur.length) 0 hdog0
  refine ⟨?_, ?_, ?_⟩
  · have h1 := bandLoop_len_lb sqrt prev cur (List.range cur.length) 0
    simp only [bandFaces, List.length_append, List.length_range] at h1 ⊢
    omega
  · have h1 := bandLoop_len_ub sqrt prev cur true (List.range cur.length) 0
    have h2 := closeWalk_len_le prev (humanAt cur 0).pid prev.length
      (bandLoop sqrt prev cur true (List.range cur.length) 0).2
    simp only [bandFaces, List.length_append, List.length_range] at h1 ⊢
    simp only [if_pos]
    omega
  · intro f hf
    simp only [bandFaces, if_pos, List.mem_append] at hf
    rcases hf with h | h
    · exact bandLoop_mem sqrt prev cur true (List.range cur.length) 0 hdog0
        (fun x hx => List.mem_range.mp hx) f h
    · have hm0 : (humanAt cur 0).pid ∈ (prev ++ cur).map Pt.pid := by
        rw [List.map_append]
        exact List.mem_append_right _ (List.mem_map_of_mem Pt.pid (getD_mem _ _ _ hm))
      have hc := closeWalk_mem prev (humanAt cur 0).pid prev.length _ hsnd f h
      refine ⟨hc.1 ▸ hm0, ?_, ?_⟩
      · rw [List.map_append]
        exact List.mem_append_left _ hc.2.1
      · rw [List.map_append]
        exact List.mem_append_left _ hc.2.2

/-- Previous row used by the C1 witness. -/
def c1wPrev : List (Pt ℚ) := [⟨0, 1, 0, 0⟩]

/-- Current row used by the C1 witness. -/
def c1wCur : List (Pt ℚ) := [⟨1, 0, 1, 0⟩]

/-- Witness for C1 at a concrete rational input. -/
theorem c1_band_bounds_witness :
    1 ≤ c1wPrev.length ∧ 1 ≤ c1wCur.length ∧
    (c1wCur.length ≤ (bandFaces ratSqrt c1wPrev c1wCur true).length ∧
      (bandFaces ratSqrt c1wPrev c1wCur true).length ≤
        c1wCur.length * (c1wPrev.length + 1) + c1wPrev.length ∧
      ∀ f ∈ bandFaces ratSqrt c1wPrev c1wCur true,
        f.1 ∈ (c1wPrev ++ c1wCur).map Pt.pid ∧
        f.2.1 ∈ (c1wPrev ++ c1wCur).map Pt.pid ∧
        f.2.2 ∈ (c1wPrev ++ c1wCur).map Pt.pid) :=
  ⟨by simp [c1wPrev], by simp [c1wCur],
    c1_band_bounds ratSqrt c1wPrev c1wCur (by simp [c1wPrev]) (by simp [c1wCur])⟩

/-- Previous row of the first C1 counterexample band: three unit points. -/
def c1prevA (K : Type) [DivisionRing K] : List (Pt K) :=
  [⟨0, 1, 0, 0⟩, ⟨1, -3/5, 4/5, 0⟩, ⟨2, -3/5, -4/5, 0⟩]

/-- Current row of the first C1 counterexample band: two unit points. -/
def c1curA (K : Type) [DivisionRing K] : List (Pt K) :=
  [⟨3, -4/5, -3/5, 0⟩, ⟨4, 0, 1, 0⟩]

/-- Previous row of the second C1 counterexample band: two antipodal points,
both at equal distance from the single current point. -/
def c1prevB (K : Type) [DivisionRing K] : List (Pt K) :=
  [⟨0, 1, 0, 0⟩, ⟨1, -1, 0, 0⟩]

/-- Current row of the second C1 counterexample band. -/
def c1curB (K : Type) [DivisionRing K] : List (Pt K) :=
  [⟨2, 0, 1, 0⟩]

lemma bandFaces_exA {K : Type} [LinearOrderedField K] (sqrt : K → K)
    (h1 : sqrt 1 = 1) :
    bandFaces sqrt (c1prevA K) (c1curA K) true =
      [(3, 1, 0), (3, 2, 1), (3, 4, 2), (4, 0, 2), (4, 1, 0), (4, 3, 1),
        (3, 2, 1), (3, 0, 2)] := by
  norm_num [c1prevA, c1curA, bandFaces, bandLoop, walkAt, humanAt, bridgeAt,
    dogWalk, closeWalk, norm, dist2, dummyPt, List.getD, List.range_succ, h1]

lemma bandFaces_exB {K : Type} [LinearOrderedField K] (sqrt : K → K)
    (h1 : sqrt 1 = 1) :
    bandFaces sqrt (c1prevB K) (c1curB K) true = [(2, 2, 0)] := by
  norm_num [c1prevB, c1curB, bandFaces, bandLoop, walkAt, humanAt, bridgeAt,
    dogWalk, closeWalk, norm, dist2, dummyPt, List.getD, List.range_succ, h1]

/-- Counterexample to C1 as stated: on the first band (rows of lengths n=3
and m=2) get_faces emits 8 faces, exceeding the claimed upper bound m+n=5;
on the second band (rows of lengths n=2 and m=1, all distances equal) it
emits 1 face, below the claimed lower bound max(m,n)=2. -/
theorem c1_counterexample :
    ((bandFaces Real.sqrt (c1prevA ℝ) (c1curA ℝ) true).length = 8 ∧
      ¬ ((bandFaces Real.sqrt (c1prevA ℝ) (c1curA ℝ) true).length ≤
          (c1curA ℝ).length + (c1prevA ℝ).length)) ∧
    ((bandFaces Real.sqrt (c1prevB ℝ) (c1curB ℝ) true).length = 1 ∧
      (bandFaces Real.sqrt (c1prevB ℝ) (c1curB ℝ) true).length <
        max (c1curB ℝ).length (c1prevB ℝ).length) := by
  rw [bandFaces_exA Real.sqrt Real.sqrt_one, bandFaces_exB Real.sqrt Real.sqrt_one]
  simp [c1prevA, c1curA, c1prevB, c1curB]

section Termination

variable {K : Type} [LinearOrderedField K]

/-- The squared distance from the fixed normalized human point to the
normalized point of the previous row at index t. -/
def distAt (sqrt : K → K) (prev : List (Pt K)) (pnh : K × K × K) (t : ℕ) : K :=
  dist2 pnh (norm sqrt (prev.getD t (dummyPt K)))

/-- The inner while loop of get_faces, started at index dog, reaches its
break (a non-improving candidate) within b candidate steps. -/
def breaksWithin (v : ℕ → K) (n : ℕ) : ℕ → ℕ → Prop
  | _, 0 => False
  | dog, b + 1 =>
    ¬ (v ((dog + 1) % n) < v dog) ∨ breaksWithin v n ((dog + 1) % n) b

lemma breaksWithin_succ (v : ℕ → K) (n : ℕ) (dog b : ℕ) :
    breaksWithin v n dog (b + 1) =
      (¬ (v ((dog + 1) % n) < v dog) ∨ breaksWithin v n ((dog + 1) % n) b) :=
  rfl

lemma breaksWithin_chain (v : ℕ → K) (n : ℕ) :
    ∀ b dog, dog < n → ¬ breaksWithin v n dog (b + 1) →
      v ((dog + (b + 1)) % n) < v dog := by
  intro b
  induction b with
  | zero =>
    intro dog _ h
    rw [breaksWithin_succ, not_or] at h
    simpa using not_not.mp h.1
  | succ b ih =>
    intro dog hdog h
    have hn : 0 < n := lt_of_le_of_lt (Nat.zero_le _) hdog
    rw [breaksWithin_succ, not_or] at h
    have h1 : v ((dog + 1) % n) < v dog := not_not.mp h.1
    have h2 := ih ((dog + 1) % n) (Nat.mod_lt _ hn) h.2
    rw [Nat.mod_add_mod] at h2
    have harith : dog + 1 + (b + 1) = dog + (b + 1 + 1) := by ring
    rw [harith] at h2
    exact lt_trans h2 h1

lemma breaksWithin_exists (v : ℕ → K) (n : ℕ) (dog : ℕ) (hdog : dog < n) :
    breaksWithin v n dog n := by
  by_contra h
  have hn : 0 < n := lt_of_le_of_lt (Nat.zero_le _) hdog
  obtain ⟨m, rfl⟩ := Nat.exists_eq_succ_of_ne_zero (Nat.pos_iff_ne_zero.mp hn)
  have := breaksWithin_chain v (m + 1) m dog hdog h
  rw [Nat.add_mod_right, Nat.mod_eq_of_lt hdog] at this
  exact lt_irrefl _ this

lemma dogWalk_congr_fuel (sqrt : K → K) (hpid : ℕ) (prev : List (Pt K))
    (pnh : K × K × K) :
    ∀ b dog f1 f2, breaksWithin (distAt sqrt prev pnh) prev.length dog b →
      b ≤ f1 → b ≤ f2 →
      dogWalk sqrt hpid prev pnh dog (distAt sqrt prev pnh dog) f1 =
        dogWalk sqrt hpid prev pnh dog (distAt sqrt prev pnh dog) f2 := by
  intro b
  induction b with
  | zero => intro dog f1 f2 hb; exact absurd hb id
  | succ b ih =>
    intro dog f1 f2 hb hf1 hf2
    obtain ⟨g1, rfl⟩ := Nat.exists_eq_add_of_le hf1
    obtain ⟨g2, rfl⟩ := Nat.exists_eq_add_of_le hf2
    have e1 : b + 1 + g1 = (b + g1) + 1 := by omega
    have e2 : b + 1 + g2 = (b + g2) + 1 := by omega
    rw [e1, e2]
    simp only [dogWalk, distAt]
    by_cases hcond : dist2 pnh (norm sqrt (prev.getD ((dog + 1) % prev.length)
        (dummyPt K))) < dist2 pnh (norm sqrt (prev.getD dog (dummyPt K)))
    · have hb2 : breaksWithin (distAt sqrt prev pnh) prev.length
          ((dog + 1) % prev.length) b := by
        rw [breaksWithin_succ] at hb
        rcases hb with h | h
        · exact absurd hcond (by simpa [distAt] using h)
        · exact h
      have hrec := ih ((dog + 1) % prev.length) (b + g1) (b + g2) hb2
        (Nat.le_add_right _ _) (Nat.le_add_right _ _)
      simp only [distAt] at hrec
      rw [if_pos hcond, if_pos hcond, hrec]
    · rw [if_neg hcond, if_neg hcond]

lemma closeWalk_zero (prev : List (Pt K)) (c0 : ℕ) (fuel : ℕ) :
    closeWalk prev c0 0 fuel = [] := by
  cases fuel <;> simp [closeWalk]

lemma closeWalk_congr_fuel (prev : List (Pt K)) (c0 : ℕ) :
    ∀ k dog f1 f2, dog < prev.length → prev.length - dog ≤ k →
      k ≤ f1 → k ≤ f2 →
      closeWalk prev c0 dog f1 = closeWalk prev c0 dog f2 := by
  intro k
  induction k with
  | zero => intro dog f1 f2 hdog hk _ _; omega
  | succ k ih =>
    intro dog f1 f2 hdog hk hf1 hf2
    by_cases hd0 : dog = 0
    · subst hd0
      rw [closeWalk_zero, closeWalk_zero]
    · obtain ⟨g1, rfl⟩ := Nat.exists_eq_add_of_le hf1
      obtain ⟨g2, rfl⟩ := Nat.exists_eq_add_of_le hf2
      rw [Nat.succ_add, Nat.succ_add]
      simp only [closeWalk, if_neg hd0]
      by_cases hdw : (dog + 1) % prev.length = 0
      · rw [hdw, closeWalk_zero, closeWalk_zero]
      · have hlt : dog + 1 < prev.length := by
          rcases Nat.lt_or_ge (dog + 1) prev.length with h | h
          · exact h
          · have : dog + 1 = prev.length := by omega
            rw [this, Nat.mod_self] at hdw
            exact absurd rfl hdw
        have hmod : (dog + 1) % prev.length = dog + 1 := Nat.mod_eq_of_lt hlt
        rw [hmod]
        rw [ih (dog + 1) (k + g1) (k + g2) hlt (by omega)
          (Nat.le_add_right _ _) (Nat.le_add_right _ _)]

/-- C7: the walking-the-dog loops of get_faces terminate on well-formed
input.  With the dog inside the nonempty previous row and the running
distance equal to the distance at the dog (the loop invariant), the inner
while loop is insensitive to any fuel of at least n (it reaches its break
within n candidate steps, each accepted step strictly decreasing the
distance); a candidate at equal distance never advances the dog; and the
closing walk reaches index 0 in at most n steps, likewise insensitive to
fuel of at least n. -/
theorem c7_termination {K : Type} [LinearOrderedField K] (sqrt : K → K)
    (hpid : ℕ) (prev : List (Pt K)) (pnh : K × K × K) (dog c0 : ℕ)
    (hdog : dog < prev.length) :
    (∀ fuel, prev.length ≤ fuel →
      dogWalk sqrt hpid prev pnh dog (distAt sqrt prev pnh dog) fuel =
        dogWalk sqrt hpid prev pnh dog (distAt sqrt prev pnh dog) prev.length) ∧
    (∀ dist fuel, distAt sqrt prev pnh ((dog + 1) % prev.length) = dist →
      dogWalk sqrt hpid prev pnh dog dist fuel = ([], dog)) ∧
    (∀ fuel, prev.length ≤ fuel →
      closeWalk prev c0 dog fuel = closeWalk prev c0 dog prev.length) ∧
    (closeWalk prev c0 dog prev.length).length ≤ prev.length := by
  refine ⟨?_, ?_, ?_, ?_⟩
  · intro fuel hfuel
    exact dogWalk_congr_fuel sqrt hpid prev pnh prev.length dog fuel prev.length
      (breaksWithin_exists _ _ dog hdog) hfuel le_rfl
  · intro dist fuel heq
    simp only [distAt] at heq
    cases fuel with
    | zero => rfl
    | succ n =>
      simp only [dogWalk]
      rw [heq, if_neg (lt_irrefl dist)]
  · intro fuel hfuel
    exact closeWalk_congr_fuel prev c0 prev.length dog fuel prev.length hdog
      (Nat.sub_le _ _) hfuel le_rfl
  · exact closeWalk_len_le prev c0 prev.length dog

/-- Witness for C7 at a concrete rational input. -/
theorem c7_termination_witness :
    0 < c1wPrev.length ∧
    ((∀ fuel, c1wPrev.length ≤ fuel →
      dogWalk ratSqrt 0 c1wPrev (0, 0, 0) 0
          (distAt ratSqrt c1wPrev (0, 0, 0) 0) fuel =
        dogWalk ratSqrt 0 c1wPrev (0, 0, 0) 0
          (distAt ratSqrt c1wPrev (0, 0, 0) 0) c1wPrev.length) ∧
    (∀ dist fuel, distAt ratSqrt c1wPrev (0, 0, 0) ((0 + 1) % c1wPrev.length) = dist →
      dogWalk ratSqrt 0 c1wPrev (0, 0, 0) 0 dist fuel = ([], 0)) ∧
    (∀ fuel, c1wPrev.length ≤ fuel →
      closeWalk c1wPrev 0 0 fuel = closeWalk c1wPrev 0 0 c1wPrev.length) ∧
    (closeWalk c1wPrev 0 0 c1wPrev.length).length ≤ c1wPrev.length) :=
  ⟨by simp [c1wPrev], c7_termination ratSqrt 0 c1wPrev (0, 0, 0) 0 0 (by simp [c1wPrev])⟩

end Termination

end Mapelia

namespace Splitcut

/-!
Embedding of the stl hemisphere-splitting tool (the splitcut script quoted
in the repository readme).  The tool works on unpacked stl triangles, i.e.
triples of vertices; stl floats are embedded as rationals.  A Python crash
(IndexError while tiling a degenerate straddling triangle) is modelled by
returning none for the whole run.
-/

/-- A vertex of an stl triangle: the unpacked (x, y, z) floats. -/
abbrev V : Type := ℚ × ℚ × ℚ

/-- An unpacked stl triangle. -/
abbrev Tri : Type := V × V × V

/-- The hemisphere tag of a walk entry: north, south, or an interpolated
point on the cutting plane (class x in the source). -/
inductive Tag
  | N
  | S
  | X
deriving DecidableEq, Repr

/-- The class assigned to a whole triangle by find_class. -/
inductive TClass
  | N
  | S
  | discarded
deriving DecidableEq, Repr

/-- The z coordinate of a vertex. -/
def zOf (p : V) : ℚ := p.2.2

/-- Function find_class of the splitcut tool with number=0: classify a
triangle by comparing its vertex z values with zcut. -/
def find_class (zcut : ℚ) (t : Tri) : TClass :=
  if zcut ≤ min (min (zOf t.1) (zOf t.2.1)) (zOf t.2.2) then TClass.N
  else if max (max (zOf t.1) (zOf t.2.1)) (zOf t.2.2) ≤ zcut then TClass.S
  else TClass.discarded

/-- Function pq_at_zcut: the point between p and q that has z = zcut. -/
def pq_at_zcut (p q : V) (zcut : ℚ) : V :=
  let a := (zcut - zOf p) / (zOf q - zOf p)
  (p.1 + a * (q.1 - p.1), p.2.1 + a * (q.2.1 - p.2.1), zcut)

/-- The hemisphere of a single vertex inside function cut. -/
def hemi (zcut : ℚ) (p : V) : Tag := if zOf p > zcut then Tag.N else Tag.S

/-- One step of the vertex walk of function cut: insert an interpolated
point when the hemisphere changed since the previous vertex, then append
the vertex unless an identical (vertex, hemisphere) entry already exists. -/
def walkStep (zcut : ℚ) (p : V) (last : Option (Tag × V))
    (pts : List (V × Tag)) : List (V × Tag) :=
  let h := hemi zcut p
  let pts1 := match last with
    | some lp => if lp.1 ≠ h then pts ++ [(pq_at_zcut lp.2 p zcut, Tag.X)] else pts
    | none => pts
  if (p, h) ∈ pts1 then pts1 else pts1 ++ [(p, h)]

/-- The vertex walk of function cut: visit the three vertices cyclically,
performing walkStep at each one. -/
def cutWalk (zcut : ℚ) : List V → Option (Tag × V) → List (V × Tag) → List (V × Tag)
  | [], _, pts => pts
  | p :: ps, last, pts =>
    cutWalk zcut ps (some (hemi zcut p, p)) (walkStep zcut p last pts)

/-- The points list built by function cut for one triangle. -/
def cutPoints (zcut : ℚ) (t : Tri) : List (V × Tag) :=
  cutWalk zcut [t.1, t.2.1, t.2.2, t.1] none []

/-- Placeholder walk entry for out-of-range access. -/
def dummyVT : V × Tag := ((0, 0, 0), Tag.X)

/-- One iteration of the tiling loop of function cut: the piece anchored at
walk entry i, spanning to its neighbours. -/
def cutPiece (pts : List (V × Tag)) (i : ℕ) : Option (Tag × Tri) :=
  let pc := (pts.getD i dummyVT).2
  if pc = Tag.X then none
  else
    let il := (i + 4) % 5
    let ir := (i + 1) % 5
    let irr := (i + 2) % 5
    let i2 := if (pts.getD ir dummyVT).2 = Tag.X then ir else irr
    some (pc, ((pts.getD i dummyVT).1, (pts.getD i2 dummyVT).1, (pts.getD il dummyVT).1))

/-- Function cut of the splitcut tool: tile a straddling triangle into the
pieces lying in each hemisphere.  When the walk does not produce the 5
points the loop indexes (a degenerate triangle), the Python code raises an
IndexError, modelled as none. -/
def cut (zcut : ℚ) (t : Tri) : Option (List (Tag × Tri)) :=
  let pts := cutPoints zcut t
  if pts.length = 5 then some ((List.range 5).filterMap (cutPiece pts)) else none

/-- The contribution of one triangle to the output of extract_triangles in
geometric re-tiling mode: a cleanly classed triangle goes to its own class,
a straddling one is re-tiled through cut (none when cut crashes). -/
def classify (zcut : ℚ) (t : Tri) : Option (List (Tag × Tri)) :=
  match find_class zcut t with
  | TClass.N => some [(Tag.N, t)]
  | TClass.S => some [(Tag.S, t)]
  | TClass.discarded => cut zcut t

/-- Function extract_triangles in geometric mode with re-tiling (number=0,
separate_discarded false): concatenate every triangle's contribution,
propagating a crash of cut as none. -/
def extract_triangles (zcut : ℚ) : List Tri → Option (List (Tag × Tri))
  | [] => some []
  | t :: ts =>
    (classify zcut t).bind
      (fun pieces => (extract_triangles zcut ts).map (fun r => pieces ++ r))

lemma hemi_ne_X (zcut : ℚ) (p : V) : hemi zcut p ≠ Tag.X := by
  unfold hemi
  split <;> simp

lemma walkStep_mem (zcut : ℚ) (p : V) (last : Option (Tag × V))
    (pts : List (V × Tag)) (e : V × Tag) (he : e ∈ walkStep zcut p last pts) :
    e ∈ pts ∨ (∃ lp, last = some lp ∧ e = (pq_at_zcut lp.2 p zcut, Tag.X)) ∨
      e = (p, hemi zcut p) := by
  unfold walkStep at he
  rcases last with _ | lp
  · simp only at he
    split at he
    · exact Or.inl he
    · rcases List.mem_append.mp he with h | h
      · exact Or.inl h
      · exact Or.inr (Or.inr (List.mem_singleton.mp h))
  · simp only at he
    split at he
    · split at he
      · rcases List.mem_append.mp he with h | h
        · exact Or.inl h
        · exact Or.inr (Or.inl ⟨lp, rfl, List.mem_singleton.mp h⟩)
      · rcases List.mem_append.mp he with h | h
        · rcases List.mem_append.mp h with h1 | h1
          · exact Or.inl h1
          · exact Or.inr (Or.inl ⟨lp, rfl, List.mem_singleton.mp h1⟩)
        · exact Or.inr (Or.inr (List.mem_singleton.mp h))
    · split at he
      · exact Or.inl he
      · rcases List.mem_append.mp he with h | h
        · exact Or.inl h
        · exact Or.inr (Or.inr (List.mem_singleton.mp h))

lemma cutWalk_X (zcut : ℚ) :
    ∀ ps last pts, (∀ e ∈ pts, e.2 = Tag.X → zOf e.1 = zcut) →
      ∀ e ∈ cutWalk zcut ps last pts, e.2 = Tag.X → zOf e.1 = zcut := by
  intro ps
  induction ps with
  | nil => intro last pts h; simpa [cutWalk] using h
  | cons p ps ih =>
    intro last pts h
    simp only [cutWalk]
    apply ih
    intro e he hX
    rcases walkStep_mem zcut p last pts e he with h1 | ⟨lp, _, rfl⟩ | rfl
    · exact h e h1 hX
    · rfl
    · exact absurd hX (hemi_ne_X zcut p)

/-- C2, interpolation part: every entry the walk tags as an interpolated
crossing point lies exactly on the cutting plane. -/
lemma cutPoints_X (zcut : ℚ) (t : Tri) :
    ∀ e ∈ cutPoints zcut t, e.2 = Tag.X → zOf e.1 = zcut :=
  cutWalk_X zcut _ none [] (by intro e he; simp at he)

section CutSound

set_option maxHeartbeats 2000000

/-- C2, tiling part: every piece that function cut classes N has all its
vertex z values at least zcut, and every piece classed S has them at most
zcut (vacuously true when the Python code would crash). -/
lemma cut_sound (zcut : ℚ) (v1 v2 v3 : V) :
    ∀ e ∈ (cut zcut (v1, v2, v3)).getD [],
      (e.1 = Tag.N → zcut ≤ zOf e.2.1 ∧ zcut ≤ zOf e.2.2.1 ∧ zcut ≤ zOf e.2.2.2) ∧
      (e.1 = Tag.S → zOf e.2.1 ≤ zcut ∧ zOf e.2.2.1 ≤ zcut ∧ zOf e.2.2.2 ≤ zcut) := by
  by_cases h1 : zOf v1 > zcut <;> by_cases h2 : zOf v2 > zcut <;>
    by_cases h3 : zOf v3 > zcut <;>
    · simp only [cut, cutPoints, cutWalk, walkStep, hemi, h1, h2, h3, ite_true,
        ite_false, if_true, if_false, List.not_mem_nil, List.nil_append, ne_eq,
        reduceCtorEq, not_false_eq_true, List.mem_singleton, List.mem_cons,
        Prod.mk.injEq, and_true, and_false, or_false, false_or, not_true_eq_false,
        decide_not]
      split_ifs <;>
        simp_all [List.range_succ, cutPiece, List.getD, pq_at_zcut, zOf] <;>
        (repeat' constructor) <;> linarith

end CutSound

lemma find_class_N (zcut : ℚ) (t : Tri) (h : find_class zcut t = TClass.N) :
    zcut ≤ zOf t.1 ∧ zcut ≤ zOf t.2.1 ∧ zcut ≤ zOf t.2.2 := by
  unfold find_class at h
  split_ifs at h with hmin hmax
  simp only [le_min_iff] at hmin
  exact ⟨hmin.1.1, hmin.1.2, hmin.2⟩

lemma find_class_S (zcut : ℚ) (t : Tri) (h : find_class zcut t = TClass.S) :
    zOf t.1 ≤ zcut ∧ zOf t.2.1 ≤ zcut ∧ zOf t.2.2 ≤ zcut := by
  unfold find_class at h
  split_ifs at h with hmin hmax
  simp only [max_le_iff] at hmax
  exact ⟨hmax.1.1, hmax.1.2, hmax.2⟩

lemma classify_sound (zcut : ℚ) (t : Tri) (pieces : List (Tag × Tri))
    (h : classify zcut t = some pieces) :
    ∀ e ∈ pieces,
      (e.1 = Tag.N → zcut ≤ zOf e.2.1 ∧ zcut ≤ zOf e.2.2.1 ∧ zcut ≤ zOf e.2.2.2) ∧
      (e.1 = Tag.S → zOf e.2.1 ≤ zcut ∧ zOf e.2.2.1 ≤ zcut ∧ zOf e.2.2.2 ≤ zcut) := by
  intro e he
  unfold classify at h
  cases hcls : find_class zcut t with
  | N =>
    simp only [hcls, Option.some.injEq] at h
    subst h
    rcases List.mem_singleton.mp he with rfl
    exact ⟨fun _ => find_class_N zcut t hcls, fun hS => by simp at hS⟩
  | S =>
    simp only [hcls, Option.some.injEq] at h
    subst h
    rcases List.mem_singleton.mp he with rfl
    exact ⟨fun hN => by simp at hN, fun _ => find_class_S zcut t hcls⟩
  | discarded =>
    simp only [hcls] at h
    obtain ⟨w1, w2, w3⟩ := t
    exact cut_sound zcut w1 w2 w3 e (by rw [h]; exact he)

lemma extract_sound (zcut : ℚ) :
    ∀ ts out, extract_triangles zcut ts = some out →
      ∀ e ∈ out,
        (e.1 = Tag.N → zcut ≤ zOf e.2.1 ∧ zcut ≤ zOf e.2.2.1 ∧ zcut ≤ zOf e.2.2.2) ∧
        (e.1 = Tag.S → zOf e.2.1 ≤ zcut ∧ zOf e.2.2.1 ≤ zcut ∧ zOf e.2.2.2 ≤ zcut) := by
  intro ts
  induction ts with
  | nil =>
    intro out h e he
    simp only [extract_triangles, Option.some.injEq] at h
    subst h
    simp at he
  | cons t ts ih =>
    intro out h e he
    simp only [extract_triangles] at h
    cases hc : classify zcut t with
    | none => rw [hc] at h; simp at h
    | some pieces =>
      rw [hc] at h
      cases hrec : extract_triangles zcut ts with
      | none => rw [hrec] at h; simp at h
      | some r =>
        rw [hrec] at h
        simp only [Option.some_bind, Option.map_some', Option.some.injEq] at h
        subst h
        rcases List.mem_append.mp he with hmem | hmem
        · exact classify_sound zcut t pieces hc e hmem
        · exact ih r hrec e hmem

/-- C2: in geometric re-tiling mode, every vertex of every triangle placed
in the N output has z at least zcut, every vertex of every triangle placed
in the S output has z at most zcut, and every interpolated vertex inserted
at an edge crossing lies exactly at z = zcut. -/
theorem c2_hemisphere_split (zcut : ℚ) (ts : List Tri) (out : List (Tag × Tri))
    (h : extract_triangles zcut ts = some out) :
    (∀ e ∈ out, e.1 = Tag.N →
      zcut ≤ zOf e.2.1 ∧ zcut ≤ zOf e.2.2.1 ∧ zcut ≤ zOf e.2.2.2) ∧
    (∀ e ∈ out, e.1 = Tag.S →
      zOf e.2.1 ≤ zcut ∧ zOf e.2.2.1 ≤ zcut ∧ zOf e.2.2.2 ≤ zcut) ∧
    (∀ t : Tri, ∀ e ∈ cutPoints zcut t, e.2 = Tag.X → zOf e.1 = zcut) := by
  refine ⟨?_, ?_, ?_⟩
  · intro e he hN
    exact (extract_sound zcut ts out h e he).1 hN
  · intro e he hS
    exact (extract_sound zcut ts out h e he).2 hS
  · intro t
    exact cutPoints_X zcut t

/-- The triangle list used by the C2 witness: one triangle fully above the
plane and one straddling it. -/
def c2wTris : List Tri :=
  [((0, 0, 1), (1, 0, 1), (0, 1, 1)), ((0, 0, -2), (0, 2, 2), (2, 0, 2))]

/-- The output of the C2 witness run. -/
def c2wOut : List (Tag × Tri) :=
  [(Tag.N, ((0, 0, 1), (1, 0, 1), (0, 1, 1))),
   (Tag.S, ((0, 0, -2), (0, 1, 0), (1, 0, 0))),
   (Tag.N, ((0, 2, 2), (1, 0, 0), (0, 1, 0))),
   (Tag.N, ((2, 0, 2), (1, 0, 0), (0, 2, 2)))]

lemma quintSXNNX (a b c d e : V) :
    (List.range 5).filterMap
      (cutPiece [(a, Tag.S), (b, Tag.X), (c, Tag.N), (d, Tag.N), (e, Tag.X)])
    = [(Tag.S, (a, b, e)), (Tag.N, (c, e, b)), (Tag.N, (d, e, c))] := rfl

lemma c2w_eval : extract_triangles 0 c2wTris = some c2wOut := by
  have h1 : hemi (0 : ℚ) ((0, 0, -2) : V) = Tag.S := by norm_num [hemi, zOf]
  have h2 : hemi (0 : ℚ) ((0, 2, 2) : V) = Tag.N := by norm_num [hemi, zOf]
  have h3 : hemi (0 : ℚ) ((2, 0, 2) : V) = Tag.N := by norm_num [hemi, zOf]
  have hpq12 : pq_at_zcut ((0, 0, -2) : V) ((0, 2, 2) : V) 0 = ((0 : ℚ), 1, 0) := by
    norm_num [pq_at_zcut, zOf]
  have hpq31 : pq_at_zcut ((2, 0, 2) : V) ((0, 0, -2) : V) 0 = ((1 : ℚ), 0, 0) := by
    norm_num [pq_at_zcut, zOf]
  have hpts : cutPoints 0 (((0, 0, -2), (0, 2, 2), (2, 0, 2)) : Tri) =
      [((0, 0, -2), Tag.S), ((0, 1, 0), Tag.X), ((0, 2, 2), Tag.N),
       ((2, 0, 2), Tag.N), ((1, 0, 0), Tag.X)] := by
    simp only [cutPoints, cutWalk, walkStep, h1, h2, h3, hpq12, hpq31, ne_eq,
      reduceCtorEq, not_false_eq_true, if_true, if_false, ite_true, ite_false,
      List.not_mem_nil, List.mem_cons, List.mem_singleton, Prod.mk.injEq,
      and_false, false_and, and_true, or_false, false_or, or_self,
      not_true_eq_false, List.nil_append, List.cons_append, List.append_nil,
      eq_self_iff_true, and_self, if_neg, reduceIte]
    norm_num [List.mem_cons, Prod.ext_iff]
  have hfind1 : find_class 0 (((0, 0, 1), (1, 0, 1), (0, 1, 1)) : Tri) = TClass.N := by
    norm_num [find_class, zOf]
  have hfind2 : find_class 0 (((0, 0, -2), (0, 2, 2), (2, 0, 2)) : Tri) =
      TClass.discarded := by
    norm_num [find_class, zOf]
  have hcut : cut 0 (((0, 0, -2), (0, 2, 2), (2, 0, 2)) : Tri) =
      some [(Tag.S, ((0, 0, -2), (0, 1, 0), (1, 0, 0))),
            (Tag.N, ((0, 2, 2), (1, 0, 0), (0, 1, 0))),
            (Tag.N, ((2, 0, 2), (1, 0, 0), (0, 2, 2)))] := by
    rw [cut, hpts]
    norm_num [quintSXNNX]
  have hclass1 : classify 0 (((0, 0, 1), (1, 0, 1), (0, 1, 1)) : Tri) =
      some [(Tag.N, ((0, 0, 1), (1, 0, 1), (0, 1, 1)))] := by
    simp only [classify, hfind1]
  have hclass2 : classify 0 (((0, 0, -2), (0, 2, 2), (2, 0, 2)) : Tri) =
      some [(Tag.S, ((0, 0, -2), (0, 1, 0), (1, 0, 0))),
            (Tag.N, ((0, 2, 2), (1, 0, 0), (0, 1, 0))),
            (Tag.N, ((2, 0, 2), (1, 0, 0), (0, 2, 2)))] := by
    simp only [classify, hfind2, hcut]
  simp only [c2wTris, c2wOut, extract_triangles, hclass1, hclass2,
    Option.some_bind, Option.map_some', List.append_nil, List.cons_append,
    List.nil_append]

/-- Witness for C2 on a concrete run with one plain and one straddling
triangle. -/
theorem c2_hemisphere_split_witness :
    extract_triangles 0 c2wTris = some c2wOut ∧
    ((∀ e ∈ c2wOut, e.1 = Tag.N →
      (0 : ℚ) ≤ zOf e.2.1 ∧ (0 : ℚ) ≤ zOf e.2.2.1 ∧ (0 : ℚ) ≤ zOf e.2.2.2) ∧
    (∀ e ∈ c2wOut, e.1 = Tag.S →
      zOf e.2.1 ≤ (0 : ℚ) ∧ zOf e.2.2.1 ≤ (0 : ℚ) ∧ zOf e.2.2.2 ≤ (0 : ℚ)) ∧
    (∀ t : Tri, ∀ e ∈ cutPoints 0 t, e.2 = Tag.X → zOf e.1 = (0 : ℚ))) :=
  ⟨c2w_eval, c2_hemisphere_split 0 c2wTris c2wOut c2w_eval⟩

end Splitcut

namespace Mapelia

/-!
Real-analytic part of projections.pyx: the five map projections, the cap
angle, the sphere and cap point generators, the map point sampler and the
logo point generator, embedded over the real numbers.  The nan sentinel of
the Python code is embedded as Option: none marks an undefined inverse.
-/

/-- The five projection kinds of projection_functions. -/
inductive PType
  | mercator
  | centralCylindrical
  | mollweide
  | equirectangular
  | sinusoidal
deriving DecidableEq, Repr

/-- The arctan2 function the module imports from numpy. -/
noncomputable def atan2 (y x : ℝ) : ℝ :=
  if 0 < x then Real.arctan (y / x)
  else if x < 0 then
    (if 0 ≤ y then Real.arctan (y / x) + Real.pi else Real.arctan (y / x) - Real.pi)
  else (if 0 < y then Real.pi / 2 else if y < 0 then -(Real.pi / 2) else 0)

/-- The get_theta closure built by projection_functions: inverse azimuth of
a pixel offset, none when the inverse is undefined (nan in the source). -/
noncomputable def projection_theta (ptype : PType) (r x y : ℝ) : Option ℝ :=
  match ptype with
  | PType.mercator => some (x / r)
  | PType.centralCylindrical => some (x / r)
  | PType.mollweide =>
    let aux := y / (r * Real.sqrt 2)
    if -1 < aux ∧ aux < 1 then
      let aux2 := Real.pi * x / (2 * r * Real.sqrt 2 * Real.sqrt (1 - aux * aux))
      if -Real.pi < aux2 ∧ aux2 < Real.pi then some aux2 else none
    else none
  | PType.equirectangular => some (x / r)
  | PType.sinusoidal =>
    let theta := x / (r * Real.cos (y / r))
    if -Real.pi < theta ∧ theta < Real.pi then some theta else none

/-- The get_phi closure built by projection_functions: inverse elevation of
a pixel offset, none when the inverse is undefined (nan in the source). -/
noncomputable def projection_phi (ptype : PType) (r y : ℝ) : Option ℝ :=
  match ptype with
  | PType.mercator => some (2 * Real.arctan (Real.exp (y / r)) - Real.pi / 2)
  | PType.centralCylindrical => some (atan2 y r)
  | PType.mollweide =>
    let aux := y / (r * Real.sqrt 2)
    if -1 < aux ∧ aux < 1 then
      let aux2 := (2 * Real.arcsin aux + Real.sin (2 * Real.arcsin aux)) / Real.pi
      if -1 < aux2 ∧ aux2 < 1 then some (Real.arcsin aux2) else none
    else none
  | PType.equirectangular => some (y / r)
  | PType.sinusoidal => some (y / r)

/-- The caps configuration value: auto, none, or an explicit angle in
degrees. -/
inductive Caps
  | auto
  | none
  | value (a : ℝ)

/-- Function get_phi_cap of projections.pyx: the angle at which the cap
ends.  Both auto and none return the projection elevation at the image's
vertical edge; an explicit value is turned into pi/2 minus the value
converted from degrees to radians. -/
noncomputable def get_phi_cap (caps : Caps) (heights : List (List ℝ))
    (ptype : PType) : Option ℝ :=
  match caps with
  | Caps.auto | Caps.none =>
    projection_phi ptype ((((heights.headD []).length : ℕ) : ℝ) / (2 * Real.pi))
      (((heights.length / 2 : ℕ) : ℝ))
  | Caps.value a => some (Real.pi / 2 - Real.pi * a / 180)

/-- Function get_phi_cap of the older unnamed projections module: auto and
explicit angles as in the new version, but caps none returns pi/2. -/
noncomputable def get_phi_cap_old (caps : Caps) (heights : List (List ℝ))
    (ptype : PType) : Option ℝ :=
  match caps with
  | Caps.auto =>
    projection_phi ptype ((((heights.headD []).length : ℕ) : ℝ) / (2 * Real.pi))
      (((heights.length / 2 : ℕ) : ℝ))
  | Caps.none => some (Real.pi / 2)
  | Caps.value a => some (Real.pi / 2 - Real.pi * a / 180)

/-- C3 (amended): in projections.pyx the cap policies none and auto take
the same branch, both returning the projection elevation at the image's
vertical edge; only the older module returns pi/2 for none; and for an
explicit value both versions return pi/2 minus the value converted from
degrees. -/
theorem c3_phi_cap (heights : List (List ℝ)) (ptype : PType) (a : ℝ) :
    get_phi_cap Caps.none heights ptype = get_phi_cap Caps.auto heights ptype ∧
    get_phi_cap Caps.auto heights ptype =
      projection_phi ptype ((((heights.headD []).length : ℕ) : ℝ) / (2 * Real.pi))
        (((heights.length / 2 : ℕ) : ℝ)) ∧
    get_phi_cap (Caps.value a) heights ptype =
      some (Real.pi / 2 - Real.pi * a / 180) ∧
    get_phi_cap_old Caps.none heights ptype = some (Real.pi / 2) ∧
    get_phi_cap_old Caps.auto heights ptype = get_phi_cap Caps.auto heights ptype ∧
    get_phi_cap_old (Caps.value a) heights ptype =
      some (Real.pi / 2 - Real.pi * a / 180) :=
  ⟨rfl, rfl, rfl, rfl, rfl, rfl⟩

/-- The 2 x 8 grid exhibiting the C3 counterexample. -/
def c3grid : List (List ℝ) := List.replicate 2 (List.replicate 8 0)

/-- Counterexample to C3 as stated: in projections.pyx, cap policy none on
an equirectangular 2 x 8 image returns the edge elevation pi/4, not the
widest angle pi/2 that the older module returns. -/
theorem c3_counterexample :
    get_phi_cap Caps.none c3grid PType.equirectangular = some (Real.pi / 4) ∧
    some (Real.pi / 4) ≠ some (Real.pi / 2) ∧
    get_phi_cap_old Caps.none c3grid PType.equirectangular = some (Real.pi / 2) := by
  refine ⟨?_, ?_, rfl⟩
  · show projection_phi PType.equirectangular _ _ = _
    simp only [projection_phi, c3grid, List.headD, List.replicate, List.length_cons,
      List.length_replicate, Option.some.injEq]
    norm_num
    ring
  · intro h
    have hpi := Real.pi_pos
    rw [Option.some.injEq] at h
    linarith

end Mapelia

namespace Mapelia

/-- Python int() truncation toward zero of a real value. -/
noncomputable def truncInt (x : ℝ) : ℤ := if 0 ≤ x then ⌊x⌋ else -⌊-x⌋

/-- The numpy linspace of the source: num evenly spaced samples from s to
e, endpoints included. -/
noncomputable def pyLinspace (s e : ℝ) (num : ℕ) : List ℝ :=
  (List.range num).map (fun (k : ℕ) => s + (k : ℝ) * ((e - s) / ((num : ℝ) - 1)))

/-- The inner theta loop of get_sphere_points: one point per azimuth
sample, with consecutive ids. -/
noncomputable def ringPts (rcphi z : ℝ) : List ℝ → ℕ → List (Pt ℝ)
  | [], _ => []
  | θ :: θs, pid =>
    ⟨pid, Real.cos θ * rcphi, Real.sin θ * rcphi, z⟩ :: ringPts rcphi z θs (pid + 1)

/-- One latitude ring of get_sphere_points: a single point at an extreme
(z within 1e-6 of r), otherwise max(9, int(100 cos(phi))) points. -/
noncomputable def sphereRing (r φ : ℝ) (pid : ℕ) : List (Pt ℝ) :=
  let z := r * Real.sin φ
  if |z - r| < 1e-6 then [⟨pid, 0, 0, z⟩]
  else
    ringPts (r * Real.cos φ) z
      (pyLinspace (-Real.pi) Real.pi (max 9 (truncInt (100 * Real.cos φ))).toNat) pid

/-- The outer phi loop of get_sphere_points. -/
noncomputable def sphereRows (r : ℝ) : List ℝ → ℕ → List (List (Pt ℝ))
  | [], _ => []
  | φ :: φs, pid =>
    let row := sphereRing r φ pid
    row :: sphereRows r φs (pid + row.length)

/-- Function get_sphere_points of projections.pyx: rows of points on a
sphere of radius r between two elevations. -/
noncomputable def get_sphere_points (r phi_start phi_end : ℝ) (pid : ℕ) :
    List (List (Pt ℝ)) :=
  let nphi := (truncInt (max 10 (10 * |phi_end - phi_start|))).toNat
  sphereRows r (pyLinspace phi_start phi_end nphi) pid

/-- Function get_cap_points of projections.pyx: the polar cap of radius r
from the pole to phi_max (north cap for positive phi_max, south otherwise). -/
noncomputable def get_cap_points (r phi_max : ℝ) (pid : ℕ) : List (List (Pt ℝ)) :=
  if phi_max > 0 then get_sphere_points r (Real.pi / 2) phi_max pid
  else get_sphere_points r phi_max (-(Real.pi / 2)) pid

lemma truncInt_of_nonneg {x : ℝ} (h : 0 ≤ x) : truncInt x = ⌊x⌋ := if_pos h

lemma pyLinspace_length (s e : ℝ) (num : ℕ) : (pyLinspace s e num).length = num := by
  rw [pyLinspace, List.length_map, List.length_range]

lemma ringPts_length (rcphi z : ℝ) :
    ∀ θs pid, (ringPts rcphi z θs pid).length = θs.length := by
  intro θs
  induction θs with
  | nil => intro pid; rfl
  | cons θ θs ih => intro pid; simp [ringPts, ih]

lemma sphereRing_length (r φ : ℝ) (pid : ℕ) :
    (sphereRing r φ pid).length =
      if |r * Real.sin φ - r| < 1e-6 then 1
      else (max 9 (truncInt (100 * Real.cos φ))).toNat := by
  simp only [sphereRing]
  split_ifs with h
  · simp
  · simp [ringPts_length, pyLinspace_length]

lemma sphereRows_map_length (r : ℝ) :
    ∀ φs pid, (sphereRows r φs pid).map List.length =
      φs.map (fun φ => if |r * Real.sin φ - r| < 1e-6 then 1
        else (max 9 (truncInt (100 * Real.cos φ))).toNat) := by
  intro φs
  induction φs with
  | nil => intro pid; rfl
  | cons φ φs ih =>
    intro pid
    simp only [sphereRows, List.map_cons, sphereRing_length, ih]

lemma sphereRows_length (r : ℝ) :
    ∀ φs pid, (sphereRows r φs pid).length = φs.length := by
  intro φs
  induction φs with
  | nil => intro pid; rfl
  | cons φ φs ih => intro pid; simp [sphereRows, ih]

lemma nphi_ge_ten (t : ℝ) : 10 ≤ (truncInt (max 10 t)).toNat := by
  have h0 : (0 : ℝ) ≤ max 10 t := le_trans (by norm_num) (le_max_left _ _)
  rw [truncInt_of_nonneg h0]
  have h10 : (10 : ℤ) ≤ ⌊max (10 : ℝ) t⌋ := by
    rw [Int.le_floor]
    exact_mod_cast le_max_left (10 : ℝ) t
  omega

lemma pyLinspace_head (s e : ℝ) (num : ℕ) (h : 1 ≤ num) :
    (pyLinspace s e num).head? = some s := by
  obtain ⟨m, rfl⟩ := Nat.exists_eq_add_of_le h
  rw [show 1 + m = m + 1 by omega]
  rw [pyLinspace, List.range_succ_eq_map, List.map_cons, List.head?_cons]
  norm_num

lemma pyLinspace_getLast (s e : ℝ) (num : ℕ) (h : 2 ≤ num) :
    (pyLinspace s e num).getLast? = some e := by
  obtain ⟨m, rfl⟩ := Nat.exists_eq_add_of_le h
  rw [pyLinspace, show 2 + m = (1 + m) + 1 by omega, List.range_succ, List.map_append,
    List.map_singleton, List.getLast?_concat]
  simp only [Option.some.injEq]
  have hne : ((1 + m : ℕ) : ℝ) ≠ 0 := by positivity
  have hcast : (((1 + m) + 1 : ℕ) : ℝ) - 1 = ((1 + m : ℕ) : ℝ) := by
    push_cast
    ring
  rw [hcast, mul_div_cancel₀ _ hne]
  ring
end Mapelia

namespace Mapelia

lemma sphere_row_lengths (r a b : ℝ) (pid : ℕ) :
    ∀ row ∈ get_sphere_points r a b pid, row.length = 1 ∨ 9 ≤ row.length := by
  intro row hrow
  have hmem : row.length ∈ (get_sphere_points r a b pid).map List.length :=
    List.mem_map_of_mem List.length hrow
  simp only [get_sphere_points, sphereRows_map_length] at hmem
  obtain ⟨φ, _, heq⟩ := List.mem_map.mp hmem
  rw [← heq]
  split_ifs
  · exact Or.inl rfl
  · refine Or.inr ?_
    have h0 : (0 : ℤ) ≤ max 9 (truncInt (100 * Real.cos φ)) :=
      le_trans (by norm_num) (le_max_left _ _)
    rw [Int.le_toNat h0]
    exact le_max_left _ _

lemma cap_rows_count (r phi_max : ℝ) (pid : ℕ) :
    10 ≤ (get_cap_points r phi_max pid).length := by
  unfold get_cap_points
  split_ifs <;>
    · simp only [get_sphere_points]
      rw [sphereRows_length, pyLinspace_length]
      exact nphi_ge_ten _

lemma cap_north_head (r phi_max : ℝ) (pid : ℕ) (hpos : 0 < phi_max) :
    (get_cap_points r phi_max pid).head?.map List.length = some 1 := by
  unfold get_cap_points
  rw [if_pos hpos]
  simp only [get_sphere_points]
  have hn : 1 ≤ (truncInt (max 10 (10 * |phi_max - Real.pi / 2|))).toNat :=
    le_trans (by norm_num) (nphi_ge_ten _)
  have hhead := pyLinspace_head (Real.pi / 2) phi_max
    ((truncInt (max 10 (10 * |phi_max - Real.pi / 2|))).toNat) hn
  cases hc : pyLinspace (Real.pi / 2) phi_max
      ((truncInt (max 10 (10 * |phi_max - Real.pi / 2|))).toNat) with
  | nil => rw [hc] at hhead; simp at hhead
  | cons φ0 rest =>
    rw [hc] at hhead
    simp only [List.head?_cons, Option.some.injEq] at hhead
    simp only [sphereRows, List.head?_cons, Option.map_some', Option.some.injEq]
    rw [sphereRing_length, hhead, Real.sin_pi_div_two, mul_one, sub_self, abs_zero,
      if_pos (by norm_num)]

lemma cap_south_last (r phi_max : ℝ) (pid : ℕ) (hneg : phi_max < 0)
    (hr : 1e-6 ≤ 2 * r) :
    (get_cap_points r phi_max pid).getLast?.map List.length = some 9 := by
  unfold get_cap_points
  rw [if_neg (not_lt.mpr hneg.le)]
  simp only [get_sphere_points]
  have hn : 2 ≤ (truncInt (max 10 (10 * |-(Real.pi / 2) - phi_max|))).toNat :=
    le_trans (by norm_num) (nphi_ge_ten _)
  have hlast := pyLinspace_getLast phi_max (-(Real.pi / 2))
    ((truncInt (max 10 (10 * |-(Real.pi / 2) - phi_max|))).toNat) hn
  have hmap : (sphereRows r (pyLinspace phi_max (-(Real.pi / 2))
      ((truncInt (max 10 (10 * |-(Real.pi / 2) - phi_max|))).toNat)) pid).getLast?.map
        List.length =
      ((pyLinspace phi_max (-(Real.pi / 2))
        ((truncInt (max 10 (10 * |-(Real.pi / 2) - phi_max|))).toNat)).getLast?).map
        (fun φ => if |r * Real.sin φ - r| < 1e-6 then 1
          else (max 9 (truncInt (100 * Real.cos φ))).toNat) := by
    rw [← List.getLast?_map, sphereRows_map_length, List.getLast?_map]
  rw [hmap, hlast]
  simp only [Option.map_some', Option.some.injEq]
  rw [Real.sin_neg, Real.sin_pi_div_two, Real.cos_neg, Real.cos_pi_div_two]
  rw [if_neg]
  · rw [mul_zero, truncInt_of_nonneg le_rfl, Int.floor_zero]
    rfl
  · have h2r : |r * -1 - r| = 2 * r := by
      rw [show r * -1 - r = -(2 * r) by ring, abs_neg, abs_of_nonneg (by linarith)]
    rw [h2r]
    exact not_lt.mpr hr

/-- C4 (amended): get_cap_points emits at least 10 latitude rings; every
ring has either exactly one point or at least 9 points; for the north cap
the first ring (at the north pole) collapses to exactly one point; but for
the south cap (with 2r at least 1e-6) the ring at the south pole does not
collapse: it keeps exactly 9 coincident points. -/
theorem c4_cap_rings (r phi_max : ℝ) (pid : ℕ) (hr : 1e-6 ≤ 2 * r) :
    10 ≤ (get_cap_points r phi_max pid).length ∧
    (∀ row ∈ get_cap_points r phi_max pid, row.length = 1 ∨ 9 ≤ row.length) ∧
    (0 < phi_max → (get_cap_points r phi_max pid).head?.map List.length = some 1) ∧
    (phi_max < 0 →
      (get_cap_points r phi_max pid).getLast?.map List.length = some 9) := by
  refine ⟨cap_rows_count r phi_max pid, ?_, ?_, ?_⟩
  · intro row hrow
    unfold get_cap_points at hrow
    split_ifs at hrow <;> exact sphere_row_lengths r _ _ pid row hrow
  · intro hpos
    exact cap_north_head r phi_max pid hpos
  · intro hneg
    exact cap_south_last r phi_max pid hneg hr

/-- Witness for C4 at concrete north and south caps of radius one. -/
theorem c4_cap_rings_witness :
    (1e-6 : ℝ) ≤ 2 * 1 ∧
    (10 ≤ (get_cap_points 1 (Real.pi / 4) 0).length ∧
      (∀ row ∈ get_cap_points 1 (Real.pi / 4) 0, row.length = 1 ∨ 9 ≤ row.length) ∧
      (0 < Real.pi / 4 →
        (get_cap_points 1 (Real.pi / 4) 0).head?.map List.length = some 1) ∧
      (Real.pi / 4 < 0 →
        (get_cap_points 1 (Real.pi / 4) 0).getLast?.map List.length = some 9)) :=
  ⟨by norm_num, c4_cap_rings 1 (Real.pi / 4) 0 (by norm_num)⟩

/-- Counterexample to C4 as stated: for the south cap of radius 1 down from
elevation -pi/4, the ring coincident with the south pole has 9 points, not
one. -/
theorem c4_counterexample :
    (get_cap_points 1 (-(Real.pi / 4)) 0).getLast?.map List.length = some 9 ∧
    ¬ ((get_cap_points 1 (-(Real.pi / 4)) 0).getLast?.map List.length = some 1) := by
  have h := cap_south_last 1 (-(Real.pi / 4)) 0
    (neg_neg_iff_pos.mpr (by positivity)) (by norm_num)
  refine ⟨h, ?_⟩
  rw [h]
  simp

end Mapelia

namespace Mapelia

/-- Python range(0, stop, step) over machine integers as used in the inner
loop of get_map_points: ValueError (none) on step 0, empty on negative
step. -/
def pyRange (stop : ℕ) (step : ℤ) : Option (List ℕ) :=
  if step = 0 then none
  else if step < 0 then some []
  else some (List.range' 0 ((stop + step.toNat - 1) / step.toNat) step.toNat)

/-- Function mod_2pi of projections.pyx: the equivalent of angle a in
[-pi, pi). -/
noncomputable def mod_2pi (a : ℝ) : ℝ :=
  let n : ℤ := ⌊a / (2 * Real.pi)⌋
  let a0 := a - 2 * Real.pi * n
  if a0 < Real.pi then a0 else a0 - 2 * Real.pi

/-- The touches_meridians test of get_map_points: is the azimuth within
half the configured width (or the minimum visible width) of a meridian. -/
noncomputable def touchesMeridians (meridians : List (ℝ × ℝ)) (minw θ : ℝ) : Bool :=
  meridians.any (fun pw => decide (|mod_2pi (θ - pw.1)| ≤ max (pw.2 / 2) minw))

/-- Entry (j, i) of the heights grid. -/
def gridVal (heights : List (List ℝ)) (j i : ℕ) : ℝ := (heights.getD j []).getD i 0

/-- The minimum of a list of heights (heights.min() of numpy). -/
def listMin : List ℝ → ℝ
  | [] => 0
  | x :: xs => xs.foldl min x

/-- The maximum of a list of heights (heights.max() of numpy). -/
def listMax : List ℝ → ℝ
  | [] => 0
  | x :: xs => xs.foldl max x

/-- The radii array of get_map_points, per sample: the height-derived
radius when the grid has any relief, 1 for a degenerate flat grid. -/
noncomputable def radiiAt (heights : List (List ℝ)) (scale : ℝ) (j i : ℕ) : ℝ :=
  let hmin := listMin heights.flatten
  let hmax := listMax heights.flatten
  if hmax - hmin > 1e-6 then
    1 + scale * (2 * (gridVal heights j i - hmin) / (hmax - hmin) - 1)
  else 1

/-- The skip test abs(phi) > phi_cap of get_map_points; a nan phi_cap
(none) compares false, as in the float semantics of the source. -/
noncomputable def capExceeded (pc : Option ℝ) (φ : ℝ) : Bool :=
  match pc with
  | Option.none => false
  | Option.some c => decide (|φ| > c)

/-- The inner i loop of get_map_points: one point per defined azimuth
sample, skipping undefined ones, with the meridian override on the radius. -/
noncomputable def mapRowAux (ptype : PType) (r : ℝ) (nx : ℕ) (y_map : ℤ)
    (meridians : List (ℝ × ℝ)) (minw : ℝ) (rad : ℕ → ℝ) (rmer cphi sphi : ℝ) :
    List ℕ → ℕ → List (Pt ℝ) × ℕ
  | [], pid => ([], pid)
  | i :: is, pid =>
    match projection_theta ptype r (((i : ℤ) - ((nx / 2 : ℕ) : ℤ) : ℤ) : ℝ) (y_map : ℝ) with
    | Option.none => mapRowAux ptype r nx y_map meridians minw rad rmer cphi sphi is pid
    | Option.some θ =>
      let rr := if touchesMeridians meridians minw θ then rmer else rad i
      let rest := mapRowAux ptype r nx y_map meridians minw rad rmer cphi sphi is (pid + 1)
      (⟨pid, rr * Real.cos θ * cphi, rr * Real.sin θ * cphi, rr * sphi⟩ :: rest.1, rest.2)

/-- The outer j loop of get_map_points: one row per defined, cap-allowed
elevation sample; a zero x step is a Python ValueError (none); an empty
row is not appended. -/
noncomputable def mapRows (ptype : PType) (r : ℝ) (ny nx : ℕ) (phi_cap : Option ℝ)
    (rad : ℕ → ℕ → ℝ) (rmer : ℝ) (n : ℝ) (meridians : List (ℝ × ℝ)) :
    List ℕ → ℕ → Option (List (List (Pt ℝ)))
  | [], _ => some []
  | j :: js, pid =>
    match projection_phi ptype r ((((ny / 2 : ℕ) : ℤ) - (j : ℤ) : ℤ) : ℝ) with
    | Option.none => mapRows ptype r ny nx phi_cap rad rmer n meridians js pid
    | Option.some φ =>
      if capExceeded phi_cap φ then
        mapRows ptype r ny nx phi_cap rad rmer n meridians js pid
      else
        let stepx : ℤ :=
          if n > 0 then
            truncInt (max 1 ((nx : ℝ) / n) *
              (if ptype = PType.mollweide ∨ ptype = PType.sinusoidal then 1
               else 1 / Real.cos φ))
          else 1
        match pyRange nx stepx with
        | Option.none => none
        | Option.some is =>
          let row := mapRowAux ptype r nx (((ny / 2 : ℕ) : ℤ) - (j : ℤ)) meridians
            (2 * Real.pi * (stepx : ℝ) / (nx : ℝ)) (rad j) rmer
            (Real.cos φ) (Real.sin φ) is pid
          match mapRows ptype r ny nx phi_cap rad rmer n meridians js row.2 with
          | Option.none => none
          | Option.some rest => some (if row.1 = [] then rest else row.1 :: rest)

/-- Function get_map_points of projections.pyx: points on a sphere
modulated by the given heights, as a list of rows; none models a Python
crash (range step 0). -/
noncomputable def get_map_points (heights : List (List ℝ)) (pid : ℕ) (ptype : PType)
    (npoints scale : ℝ) (caps : Caps) (meridians : List (ℝ × ℝ))
    (protrusion : ℝ) : Option (List (List (Pt ℝ))) :=
  let ny := heights.length
  let nx := (heights.headD []).length
  let r := (nx : ℝ) / (2 * Real.pi)
  let phi_cap := get_phi_cap caps heights ptype
  let rmer := protrusion * (1 + scale / 2)
  let n := Real.sqrt npoints
  let stepy : ℕ := if n > 0 then (truncInt (max 1 ((ny : ℝ) / (3 * n)))).toNat else 1
  mapRows ptype r ny nx phi_cap (radiiAt heights scale) rmer n meridians
    (List.range' 0 ((ny + stepy - 1) / stepy) stepy) pid

end Mapelia

namespace Mapelia

/-- The distance of a mesh point from the origin. -/
noncomputable def pointDist (p : Pt ℝ) : ℝ :=
  Real.sqrt (p.x * p.x + p.y * p.y + p.z * p.z)

lemma pointDist_formula (pid : ℕ) (rr θ φ : ℝ) :
    pointDist ⟨pid, rr * Real.cos θ * Real.cos φ, rr * Real.sin θ * Real.cos φ,
      rr * Real.sin φ⟩ = |rr| := by
  unfold pointDist
  have h1 := Real.sin_sq_add_cos_sq θ
  have h2 := Real.sin_sq_add_cos_sq φ
  have key : (rr * Real.cos θ * Real.cos φ) * (rr * Real.cos θ * Real.cos φ) +
      (rr * Real.sin θ * Real.cos φ) * (rr * Real.sin θ * Real.cos φ) +
      (rr * Real.sin φ) * (rr * Real.sin φ) = rr ^ 2 := by
    linear_combination (rr ^ 2 * Real.cos φ ^ 2) * h1 + rr ^ 2 * h2
  rw [key, Real.sqrt_sq_eq_abs]

section MapLemmas

variable (ptype : PType) (r : ℝ) (ny nx : ℕ) (phi_cap : Option ℝ)
variable (rad2 : ℕ → ℕ → ℝ) (rad : ℕ → ℝ) (rmer : ℝ) (n : ℝ)
variable (meridians : List (ℝ × ℝ)) (minw : ℝ) (y_map : ℤ) (cphi sphi : ℝ)

lemma mapRowAux_pids : ∀ is pid,
    (mapRowAux ptype r nx y_map meridians minw rad rmer cphi sphi is pid).1.map Pt.pid
      = List.range' pid
          (mapRowAux ptype r nx y_map meridians minw rad rmer cphi sphi is pid).1.length ∧
    (mapRowAux ptype r nx y_map meridians minw rad rmer cphi sphi is pid).2
      = pid + (mapRowAux ptype r nx y_map meridians minw rad rmer cphi sphi is pid).1.length := by
  intro is
  induction is with
  | nil => intro pid; simp [mapRowAux]
  | cons i is ih =>
    intro pid
    cases hθ : projection_theta ptype r (((i : ℤ) - ((nx / 2 : ℕ) : ℤ) : ℤ) : ℝ) (y_map : ℝ) with
    | none =>
      simp only [mapRowAux, hθ]
      exact ih pid
    | some θ =>
      simp only [mapRowAux, hθ]
      have h := ih (pid + 1)
      constructor
      · simp only [List.map_cons, List.length_cons, h.1, List.range'_succ]
      · simp only [List.length_cons, h.2]
        omega

lemma mapRows_pids : ∀ js pid out,
    mapRows ptype r ny nx phi_cap rad2 rmer n meridians js pid = some out →
    out.flatten.map Pt.pid = List.range' pid out.flatten.length := by
  intro js
  induction js with
  | nil =>
    intro pid out h
    simp only [mapRows, Option.some.injEq] at h
    subst h
    simp
  | cons j js ih =>
    intro pid out h
    cases hφ : projection_phi ptype r ((((ny / 2 : ℕ) : ℤ) - (j : ℤ) : ℤ) : ℝ) with
    | none =>
      simp only [mapRows, hφ] at h
      exact ih pid out h
    | some φ =>
      simp only [mapRows, hφ] at h
      cases hcap : capExceeded phi_cap φ with
      | true =>
        rw [hcap] at h
        simp only [if_true] at h
        exact ih pid out h
      | false =>
        rw [hcap] at h
        simp only [Bool.false_eq_true, if_false] at h
        set stepx : ℤ :=
          if n > 0 then
            truncInt (max 1 ((nx : ℝ) / n) *
              (if ptype = PType.mollweide ∨ ptype = PType.sinusoidal then 1
               else 1 / Real.cos φ))
          else 1 with hstepx
        cases hrange : pyRange nx stepx with
        | none => simp only [hrange, reduceCtorEq] at h
        | some is =>
          simp only [hrange] at h
          set row := mapRowAux ptype r nx (((ny / 2 : ℕ) : ℤ) - (j : ℤ)) meridians
            (2 * Real.pi * (stepx : ℝ) / (nx : ℝ)) (rad2 j) rmer
            (Real.cos φ) (Real.sin φ) is pid with hrow
          cases hrec : mapRows ptype r ny nx phi_cap rad2 rmer n meridians js row.2 with
          | none => simp only [hrec, reduceCtorEq] at h
          | some rest =>
            simp only [hrec, Option.some.injEq] at h
            subst h
            have hpids := mapRowAux_pids ptype r nx (rad2 j) rmer meridians
              (2 * Real.pi * (stepx : ℝ) / (nx : ℝ)) (((ny / 2 : ℕ) : ℤ) - (j : ℤ))
              (Real.cos φ) (Real.sin φ) is pid
            rw [← hrow] at hpids
            by_cases hempty : row.1 = []
            · rw [if_pos hempty]
              have h2 : row.2 = pid := by
                rw [hpids.2, hempty]
                simp
              rw [← h2]
              exact ih row.2 rest hrec
            · rw [if_neg hempty]
              have hrest := ih row.2 rest hrec
              simp only [List.flatten_cons, List.map_append, List.length_append]
              rw [hpids.1, hrest, hpids.2]
              simp [Nat.add_comm]

end MapLemmas

end Mapelia

namespace Mapelia

section MapDistance

variable (ptype : PType) (r : ℝ) (ny nx : ℕ) (phi_cap : Option ℝ)
variable (rad2 : ℕ → ℕ → ℝ) (rad : ℕ → ℝ) (rmer : ℝ) (n : ℝ)
variable (meridians : List (ℝ × ℝ)) (minw : ℝ) (y_map : ℤ)

lemma mapRowAux_dist (φ : ℝ) : ∀ is pid p,
    p ∈ (mapRowAux ptype r nx y_map meridians minw rad rmer
      (Real.cos φ) (Real.sin φ) is pid).1 →
    ∃ i θ, pointDist p = |if touchesMeridians meridians minw θ then rmer else rad i| := by
  intro is
  induction is with
  | nil => intro pid p hp; simp [mapRowAux] at hp
  | cons i is ih =>
    intro pid p hp
    cases hθ : projection_theta ptype r (((i : ℤ) - ((nx / 2 : ℕ) : ℤ) : ℤ) : ℝ) (y_map : ℝ) with
    | none =>
      simp only [mapRowAux, hθ] at hp
      exact ih pid p hp
    | some θ =>
      simp only [mapRowAux, hθ] at hp
      rcases List.mem_cons.mp hp with rfl | hmem
      · exact ⟨i, θ, pointDist_formula pid _ θ φ⟩
      · exact ih (pid + 1) p hmem

lemma mapRows_dist : ∀ js pid out,
    mapRows ptype r ny nx phi_cap rad2 rmer n meridians js pid = some out →
    ∀ p ∈ out.flatten,
      ∃ j i θ minw2, pointDist p =
        |if touchesMeridians meridians minw2 θ then rmer else rad2 j i| := by
  intro js
  induction js with
  | nil =>
    intro pid out h p hp
    simp only [mapRows, Option.some.injEq] at h
    subst h
    simp at hp
  | cons j js ih =>
    intro pid out h p hp
    cases hφ : projection_phi ptype r ((((ny / 2 : ℕ) : ℤ) - (j : ℤ) : ℤ) : ℝ) with
    | none =>
      simp only [mapRows, hφ] at h
      exact ih pid out h p hp
    | some φ =>
      simp only [mapRows, hφ] at h
      cases hcap : capExceeded phi_cap φ with
      | true =>
        rw [hcap] at h
        simp only [if_true] at h
        exact ih pid out h p hp
      | false =>
        rw [hcap] at h
        simp only [Bool.false_eq_true, if_false] at h
        set stepx : ℤ :=
          if n > 0 then
            truncInt (max 1 ((nx : ℝ) / n) *
              (if ptype = PType.mollweide ∨ ptype = PType.sinusoidal then 1
               else 1 / Real.cos φ))
          else 1 with hstepx
        cases hrange : pyRange nx stepx with
        | none => simp only [hrange, reduceCtorEq] at h
        | some is =>
          simp only [hrange] at h
          set row := mapRowAux ptype r nx (((ny / 2 : ℕ) : ℤ) - (j : ℤ)) meridians
            (2 * Real.pi * (stepx : ℝ) / (nx : ℝ)) (rad2 j) rmer
            (Real.cos φ) (Real.sin φ) is pid with hrow
          cases hrec : mapRows ptype r ny nx phi_cap rad2 rmer n meridians js row.2 with
          | none => simp only [hrec, reduceCtorEq] at h
          | some rest =>
            simp only [hrec, Option.some.injEq] at h
            subst h
            by_cases hempty : row.1 = []
            · rw [if_pos hempty] at hp
              exact ih row.2 rest hrec p hp
            · rw [if_neg hempty] at hp
              simp only [List.flatten_cons, List.mem_append] at hp
              rcases hp with hp | hp
              · obtain ⟨i, θ, hd⟩ := mapRowAux_dist ptype r nx (rad2 j) rmer meridians
                  (2 * Real.pi * (stepx : ℝ) / (nx : ℝ))
                  (((ny / 2 : ℕ) : ℤ) - (j : ℤ)) φ is pid p (by rw [hrow] at hp; exact hp)
                exact ⟨j, i, θ, 2 * Real.pi * (stepx : ℝ) / (nx : ℝ), hd⟩
              · exact ih row.2 rest hrec p hp

end MapDistance

/-- The inner i loop of get_logo_points: one point per pixel inside the
inscribed circle. -/
noncomputable def logoRowAux (heights : List (List ℝ)) (nx ny : ℕ)
    (sign_phi abs_phi_max protrusion : ℝ) (j : ℕ) :
    List ℕ → ℕ → List (Pt ℝ) × ℕ
  | [], pid => ([], pid)
  | i :: is, pid =>
    let N2 : ℝ := ((max nx ny : ℕ) : ℝ) / 2
    let nx2 : ℝ := (nx : ℝ) / 2
    let ny2 : ℝ := (ny : ℝ) / 2
    let dist := Real.sqrt (((i : ℝ) - nx2) ^ 2 + ((j : ℝ) - ny2) ^ 2) / N2
    if dist > 1 then
      logoRowAux heights nx ny sign_phi abs_phi_max protrusion j is pid
    else
      let rr := protrusion + (protrusion - 1) * gridVal heights j i
      let θ := sign_phi * atan2 (ny2 - (j : ℝ)) ((i : ℝ) - nx2)
      let φ := sign_phi * (Real.pi / 2 - (Real.pi / 2 - abs_phi_max) * dist)
      let rest := logoRowAux heights nx ny sign_phi abs_phi_max protrusion j is (pid + 1)
      (⟨pid, rr * Real.cos θ * Real.cos φ, rr * Real.sin θ * Real.cos φ,
        rr * Real.sin φ⟩ :: rest.1, rest.2)

/-- The outer j loop of get_logo_points: rows keeping at least 2 points are
appended; the ids of a dropped row are reclaimed. -/
noncomputable def logoRows (heights : List (List ℝ)) (nx ny : ℕ)
    (sign_phi abs_phi_max protrusion : ℝ) :
    List ℕ → ℕ → List (List (Pt ℝ))
  | [], _ => []
  | j :: js, pid =>
    let row := logoRowAux heights nx ny sign_phi abs_phi_max protrusion j
      (List.range nx) pid
    if row.1.length > 1 then
      row.1 :: logoRows heights nx ny sign_phi abs_phi_max protrusion js row.2
    else
      logoRows heights nx ny sign_phi abs_phi_max protrusion js (row.2 - row.1.length)

/-- Function get_logo_points of projections.pyx: rows of points mapping the
logo image onto a polar disc. -/
noncomputable def get_logo_points (heights : List (List ℝ)) (phi_max : ℝ)
    (protrusion : ℝ) (pid : ℕ) : List (List (Pt ℝ)) :=
  let ny := heights.length
  let nx := (heights.headD []).length
  let sign_phi : ℝ := if phi_max > 0 then 1 else -1
  logoRows heights nx ny sign_phi |phi_max| protrusion (List.range ny) pid

section IdLemmas

variable (heights : List (List ℝ)) (nx ny : ℕ) (sφ aφ prot : ℝ)

lemma logoRowAux_pids (j : ℕ) : ∀ is pid,
    (logoRowAux heights nx ny sφ aφ prot j is pid).1.map Pt.pid
      = List.range' pid (logoRowAux heights nx ny sφ aφ prot j is pid).1.length ∧
    (logoRowAux heights nx ny sφ aφ prot j is pid).2
      = pid + (logoRowAux heights nx ny sφ aφ prot j is pid).1.length := by
  intro is
  induction is with
  | nil => intro pid; simp [logoRowAux]
  | cons i is ih =>
    intro pid
    simp only [logoRowAux]
    split_ifs with hd
    · exact ih pid
    · have h := ih (pid + 1)
      constructor
      · simp only [List.map_cons, List.length_cons, h.1, List.range'_succ]
      · simp only [List.length_cons, h.2]
        omega

lemma logoRows_pids : ∀ js pid,
    (logoRows heights nx ny sφ aφ prot js pid).flatten.map Pt.pid
      = List.range' pid (logoRows heights nx ny sφ aφ prot js pid).flatten.length := by
  intro js
  induction js with
  | nil => intro pid; simp [logoRows]
  | cons j js ih =>
    intro pid
    simp only [logoRows]
    have hpids := logoRowAux_pids heights nx ny sφ aφ prot j (List.range nx) pid
    split_ifs with hkeep
    · simp only [List.flatten_cons, List.map_append, List.length_append]
      rw [hpids.1, ih, hpids.2]
      simp [Nat.add_comm]
    · rw [ih]
      have h2 : (logoRowAux heights nx ny sφ aφ prot j (List.range nx) pid).2 -
          (logoRowAux heights nx ny sφ aφ prot j (List.range nx) pid).1.length = pid := by
        rw [hpids.2]
        omega
      rw [h2]

end IdLemmas

lemma ringPts_pids (rcphi z : ℝ) : ∀ θs pid,
    (ringPts rcphi z θs pid).map Pt.pid = List.range' pid θs.length := by
  intro θs
  induction θs with
  | nil => intro pid; simp [ringPts]
  | cons θ θs ih =>
    intro pid
    simp only [ringPts, List.map_cons, List.length_cons, ih, List.range'_succ]

lemma sphereRing_pids (r φ : ℝ) (pid : ℕ) :
    (sphereRing r φ pid).map Pt.pid = List.range' pid (sphereRing r φ pid).length := by
  simp only [sphereRing]
  split_ifs with h
  · simp
  · rw [ringPts_pids, ringPts_length]

lemma sphereRows_pids (r : ℝ) : ∀ φs pid,
    (sphereRows r φs pid).flatten.map Pt.pid
      = List.range' pid (sphereRows r φs pid).flatten.length := by
  intro φs
  induction φs with
  | nil => intro pid; simp [sphereRows]
  | cons φ φs ih =>
    intro pid
    simp only [sphereRows, List.flatten_cons, List.map_append, List.length_append]
    rw [sphereRing_pids, ih]
    simp [Nat.add_comm]

/-- C8: each point generator started at start_id emits points whose ids are
exactly the consecutive sequence start_id, start_id+1, ...; in particular
get_logo_points reclaims the ids of dropped rows, and a crash of
get_map_points (modelled as none) yields no points at all. -/
theorem c8_ids (heights : List (List ℝ)) (pid : ℕ) (ptype : PType)
    (npoints scale : ℝ) (caps : Caps) (meridians : List (ℝ × ℝ)) (protrusion : ℝ)
    (lheights : List (List ℝ)) (lphi lprot : ℝ) (lpid : ℕ)
    (cr cphi_max : ℝ) (cpid : ℕ) :
    ((get_map_points heights pid ptype npoints scale caps meridians protrusion).map
        (fun out => out.flatten.map Pt.pid))
      = ((get_map_points heights pid ptype npoints scale caps meridians protrusion).map
        (fun out => List.range' pid out.flatten.length)) ∧
    (get_logo_points lheights lphi lprot lpid).flatten.map Pt.pid
      = List.range' lpid ((get_logo_points lheights lphi lprot lpid).flatten.length) ∧
    (get_cap_points cr cphi_max cpid).flatten.map Pt.pid
      = List.range' cpid ((get_cap_points cr cphi_max cpid).flatten.length) := by
  refine ⟨?_, ?_, ?_⟩
  · cases h : get_map_points heights pid ptype npoints scale caps meridians protrusion with
    | none => simp
    | some out =>
      simp only [Option.map_some', Option.some.injEq]
      simp only [get_map_points] at h
      exact mapRows_pids _ _ _ _ _ _ _ _ _ _ _ _ h
  · simp only [get_logo_points]
    exact logoRows_pids _ _ _ _ _ _ _ _
  · unfold get_cap_points
    split_ifs <;>
      · simp only [get_sphere_points]
        exact sphereRows_pids _ _ _

end Mapelia

namespace Mapelia

/-- C5 (amended): every point emitted by get_map_points lies at distance
equal to the absolute value of the selected radius: the meridian radius
protrusion*(1+scale/2) under the meridian override, otherwise the
height-derived radius 1 + scale*(2*(h-hmin)/(hmax-hmin) - 1) when the grid
has relief; for a flat grid with no meridians the distance is exactly 1. -/
theorem c5_radius (heights : List (List ℝ)) (pid : ℕ) (ptype : PType)
    (npoints scale : ℝ) (caps : Caps) (meridians : List (ℝ × ℝ))
    (protrusion : ℝ) (out : List (List (Pt ℝ)))
    (hout : get_map_points heights pid ptype npoints scale caps meridians protrusion
      = some out) (p : Pt ℝ) (hp : p ∈ out.flatten) :
    (listMax heights.flatten - listMin heights.flatten > 1e-6 →
      ∃ j i θ minw2, pointDist p =
        |if touchesMeridians meridians minw2 θ then protrusion * (1 + scale / 2)
         else 1 + scale * (2 * (gridVal heights j i - listMin heights.flatten) /
           (listMax heights.flatten - listMin heights.flatten) - 1)|) ∧
    (listMax heights.flatten - listMin heights.flatten ≤ 1e-6 → meridians = [] →
      pointDist p = 1) := by
  simp only [get_map_points] at hout
  obtain ⟨j, i, θ, minw2, hdp⟩ :=
    mapRows_dist _ _ _ _ _ _ _ _ _ _ _ _ hout p hp
  constructor
  · intro hrel
    refine ⟨j, i, θ, minw2, ?_⟩
    have hrad : radiiAt heights scale j i =
        1 + scale * (2 * (gridVal heights j i - listMin heights.flatten) /
          (listMax heights.flatten - listMin heights.flatten) - 1) := by
      simp only [radiiAt]
      rw [if_pos hrel]
    rw [hdp, hrad]
  · intro hflat hmer
    subst hmer
    have ht : touchesMeridians [] minw2 θ = false := rfl
    rw [ht] at hdp
    simp only [Bool.false_eq_true, if_false] at hdp
    rw [hdp]
    simp only [radiiAt]
    rw [if_neg (not_lt.mpr hflat), abs_one]

/-- Evaluation of get_map_points on the flat 1 x 1 grid [[5]]. -/
lemma c5_eval :
    get_map_points [[5]] 7 PType.equirectangular 0 (1 / 50) Caps.none [] 1
      = some [[(⟨7, 1, 0, 0⟩ : Pt ℝ)]] := by
  have hr1 : List.range' 0 1 1 = [0] := by decide
  norm_num [get_map_points, mapRows, mapRowAux, projection_phi, projection_theta,
    get_phi_cap, capExceeded, pyRange, touchesMeridians, radiiAt, gridVal,
    listMin, listMax, Real.sqrt_zero, Real.cos_zero, Real.sin_zero, hr1]

/-- Witness for C5 on the flat grid: the single emitted point lies at
distance exactly 1. -/
theorem c5_radius_witness :
    get_map_points [[5]] 7 PType.equirectangular 0 (1 / 50) Caps.none [] 1
      = some [[(⟨7, 1, 0, 0⟩ : Pt ℝ)]] ∧
    (⟨7, 1, 0, 0⟩ : Pt ℝ) ∈ ([[(⟨7, 1, 0, 0⟩ : Pt ℝ)]] : List (List (Pt ℝ))).flatten ∧
    listMax ([[(5 : ℝ)]] : List (List ℝ)).flatten -
      listMin ([[(5 : ℝ)]] : List (List ℝ)).flatten ≤ 1e-6 ∧
    pointDist ⟨7, 1, 0, 0⟩ = 1 := by
  have hmem : (⟨7, 1, 0, 0⟩ : Pt ℝ) ∈
      ([[(⟨7, 1, 0, 0⟩ : Pt ℝ)]] : List (List (Pt ℝ))).flatten := by simp
  have hflat : listMax ([[(5 : ℝ)]] : List (List ℝ)).flatten -
      listMin ([[(5 : ℝ)]] : List (List ℝ)).flatten ≤ 1e-6 := by
    norm_num [listMin, listMax]
  refine ⟨c5_eval, hmem, hflat, ?_⟩
  exact (c5_radius [[5]] 7 PType.equirectangular 0 (1 / 50) Caps.none [] 1
    [[⟨7, 1, 0, 0⟩]] c5_eval ⟨7, 1, 0, 0⟩ hmem).2 hflat rfl

/-- Evaluation of get_map_points on the 2 x 1 relief grid [[0],[1]] with
scale 2: the first sample's radius is negative. -/
lemma c5cx_eval :
    get_map_points [[0], [1]] 0 PType.equirectangular 0 2 Caps.none [] 1
      = some [[(⟨0, -1, 0, 0⟩ : Pt ℝ)], [⟨1, 3, 0, 0⟩]] := by
  have hr1 : List.range' 0 1 1 = [0] := by decide
  have hr2 : List.range' 0 2 1 = [0, 1] := by decide
  have habs : |2 * Real.pi| = 2 * Real.pi := abs_of_nonneg (by positivity)
  have hpi : ¬ (2 * Real.pi < 0) := not_lt.mpr (by positivity)
  norm_num [get_map_points, mapRows, mapRowAux, projection_phi, projection_theta,
    get_phi_cap, capExceeded, pyRange, touchesMeridians, radiiAt, gridVal,
    listMin, listMax, Real.sqrt_zero, Real.cos_zero, Real.sin_zero,
    Real.cos_two_pi, Real.sin_two_pi, min_def, max_def, hr1, hr2, habs, hpi]

/-- Counterexample to C5 as stated: on the relief grid [[0],[1]] with
scale 2 the first emitted point lies at distance 1, while the claimed
formula 1 + scale*(2*(h-hmin)/(hmax-hmin) - 1) takes only the values -1
and 3 on the grid's heights, never 1: the distance is the absolute value
of the formula, not the formula itself. -/
theorem c5_counterexample :
    get_map_points [[0], [1]] 0 PType.equirectangular 0 2 Caps.none [] 1
      = some [[(⟨0, -1, 0, 0⟩ : Pt ℝ)], [⟨1, 3, 0, 0⟩]] ∧
    (⟨0, -1, 0, 0⟩ : Pt ℝ) ∈
      ([[(⟨0, -1, 0, 0⟩ : Pt ℝ)], [⟨1, 3, 0, 0⟩]] : List (List (Pt ℝ))).flatten ∧
    listMax ([[(0 : ℝ)], [1]] : List (List ℝ)).flatten -
      listMin ([[(0 : ℝ)], [1]] : List (List ℝ)).flatten > 1e-6 ∧
    pointDist ⟨0, -1, 0, 0⟩ = 1 ∧
    ∀ h ∈ ([[(0 : ℝ)], [1]] : List (List ℝ)).flatten,
      1 + 2 * (2 * (h - listMin ([[(0 : ℝ)], [1]] : List (List ℝ)).flatten) /
        (listMax ([[(0 : ℝ)], [1]] : List (List ℝ)).flatten -
         listMin ([[(0 : ℝ)], [1]] : List (List ℝ)).flatten) - 1)
        ≠ pointDist ⟨0, -1, 0, 0⟩ := by
  have hd : pointDist (⟨0, -1, 0, 0⟩ : Pt ℝ) = 1 := by
    unfold pointDist
    norm_num
  refine ⟨c5cx_eval, by simp, by norm_num [listMin, listMax, min_def, max_def], hd, ?_⟩
  intro h hh
  rw [hd]
  have hh' : h = 0 ∨ h = 1 := by simpa using hh
  rcases hh' with rfl | rfl <;> norm_num [listMin, listMax, min_def, max_def]

end Mapelia

namespace Mapelia

/-- C6: the mollweide inverse functions return the undefined sentinel
(none, nan in the source) when |y/(r*sqrt 2)| >= 1; get_theta also returns
it exactly when the computed azimuth falls outside (-pi, pi); and
get_map_points silently skips a sample whose inverse phi or theta is
undefined: the row loop and the point loop continue unchanged. -/
theorem c6_mollweide_nan (r x y : ℝ) (js is : List ℕ) (j i pid ny nx : ℕ)
    (phi_cap : Option ℝ) (rad2 : ℕ → ℕ → ℝ) (rad : ℕ → ℝ) (rmer n : ℝ)
    (meridians : List (ℝ × ℝ)) (minw : ℝ) (y_map : ℤ) (cphi sphi : ℝ) :
    (1 ≤ |y / (r * Real.sqrt 2)| →
      projection_theta PType.mollweide r x y = none ∧
      projection_phi PType.mollweide r y = none) ∧
    (|y / (r * Real.sqrt 2)| < 1 →
      (projection_theta PType.mollweide r x y = none ↔
        ¬(-Real.pi < Real.pi * x / (2 * r * Real.sqrt 2 *
             Real.sqrt (1 - y / (r * Real.sqrt 2) * (y / (r * Real.sqrt 2)))) ∧
          Real.pi * x / (2 * r * Real.sqrt 2 *
             Real.sqrt (1 - y / (r * Real.sqrt 2) * (y / (r * Real.sqrt 2))))
            < Real.pi))) ∧
    (projection_phi PType.mollweide r ((((ny / 2 : ℕ) : ℤ) - (j : ℤ) : ℤ) : ℝ)
        = none →
      mapRows PType.mollweide r ny nx phi_cap rad2 rmer n meridians (j :: js) pid
        = mapRows PType.mollweide r ny nx phi_cap rad2 rmer n meridians js pid) ∧
    (projection_theta PType.mollweide r
        (((i : ℤ) - ((nx / 2 : ℕ) : ℤ) : ℤ) : ℝ) (y_map : ℝ) = none →
      mapRowAux PType.mollweide r nx y_map meridians minw rad rmer cphi sphi
          (i :: is) pid
        = mapRowAux PType.mollweide r nx y_map meridians minw rad rmer cphi sphi
          is pid) := by
  refine ⟨?_, ?_, ?_, ?_⟩
  · intro h
    have hg : ¬(-1 < y / (r * Real.sqrt 2) ∧ y / (r * Real.sqrt 2) < 1) := by
      rw [← abs_lt]
      exact not_lt.mpr h
    constructor
    · simp only [projection_theta]
      rw [if_neg hg]
    · simp only [projection_phi]
      rw [if_neg hg]
  · intro h
    have hg : -1 < y / (r * Real.sqrt 2) ∧ y / (r * Real.sqrt 2) < 1 := abs_lt.mp h
    simp only [projection_theta]
    rw [if_pos hg]
    split_ifs with h2
    · simp only [reduceCtorEq, false_iff, not_not]
      exact h2
    · simp only [true_iff]
      exact h2
  · intro h
    simp only [mapRows, h]
  · intro h
    simp only [mapRowAux, h]

/-- Witness for C6 at r = 1: the sample y = 2 has |y/sqrt 2| >= 1 and both
inverses are the sentinel; a row at elevation offset 5 and a point at
azimuth offset -2 under y_map = 5 are silently skipped. -/
theorem c6_mollweide_nan_witness :
    projection_theta PType.mollweide 1 5 2 = none ∧
    projection_phi PType.mollweide 1 2 = none ∧
    mapRows PType.mollweide 1 10 4 (some 1) (fun _ _ => 1) 1 0 [] [0] 3
      = mapRows PType.mollweide 1 10 4 (some 1) (fun _ _ => 1) 1 0 [] [] 3 ∧
    mapRowAux PType.mollweide 1 4 5 [] 0 (fun _ => 1) 1 1 0 [0] 3
      = mapRowAux PType.mollweide 1 4 5 [] 0 (fun _ => 1) 1 1 0 [] 3 := by
  have hsq := Real.sq_sqrt (show (0 : ℝ) ≤ 2 by norm_num)
  have hnn := Real.sqrt_nonneg 2
  have hs1 : (1 : ℝ) ≤ Real.sqrt 2 := by nlinarith
  have hs2 : Real.sqrt 2 ≤ 2 := by nlinarith
  have hpos : (0 : ℝ) < Real.sqrt 2 := lt_of_lt_of_le one_pos hs1
  have habs2 : (1 : ℝ) ≤ |2 / (1 * Real.sqrt 2)| := by
    rw [one_mul, abs_of_pos (by positivity), le_div_iff₀ hpos]
    linarith
  have habs5 : (1 : ℝ) ≤ |5 / (1 * Real.sqrt 2)| := by
    rw [one_mul, abs_of_pos (by positivity), le_div_iff₀ hpos]
    linarith
  have h2 := (c6_mollweide_nan 1 5 2 [] [] 0 0 3 10 4 (some 1) (fun _ _ => 1)
    (fun _ => 1) 1 0 [] 0 5 1 0).1 habs2
  have h5 := (c6_mollweide_nan 1 0 5 [] [] 0 0 3 10 4 (some 1) (fun _ _ => 1)
    (fun _ => 1) 1 0 [] 0 5 1 0).1 habs5
  have h5t := (c6_mollweide_nan 1 (-2) 5 [] [] 0 0 3 10 4 (some 1) (fun _ _ => 1)
    (fun _ => 1) 1 0 [] 0 5 1 0).1 habs5
  refine ⟨h2.1, h2.2, ?_, ?_⟩
  · refine (c6_mollweide_nan 1 (-2) 5 [] [] 0 0 3 10 4 (some 1) (fun _ _ => 1)
      (fun _ => 1) 1 0 [] 0 5 1 0).2.2.1 ?_
    have hc : (((((10 / 2 : ℕ) : ℤ) - ((0 : ℕ) : ℤ) : ℤ)) : ℝ) = 5 := by norm_num
    rw [hc]
    exact h5.2
  · refine (c6_mollweide_nan 1 (-2) 5 [] [] 0 0 3 10 4 (some 1) (fun _ _ => 1)
      (fun _ => 1) 1 0 [] 0 5 1 0).2.2.2 ?_
    have hc : ((((0 : ℕ) : ℤ) - ((4 / 2 : ℕ) : ℤ) : ℤ) : ℝ) = -2 := by norm_num
    have hc5 : (((5 : ℤ) : ℝ)) = 5 := by norm_num
    rw [hc, hc5]
    exact h5t.1

end Mapelia
